import Mathlib

/- Shallow embedding of the config-templating / inlining engine of
   tools/combine-files/combine_files.py.

   Text is modelled as plain lists of characters.  The functions below are
   direct translations of the Python source: the variable expander
   (expand_default_values / expand_path_variables), the dual-view
   ConfigContent model, the TOML match locator (find_valid_toml_matches and
   its helpers), and the two script inliners.  The external tomlkit library
   is modelled explicitly: parsed documents are passed in as values of a
   tomlkit-item type carrying both the unwrapped value and the
   style-preserving raw representation, and the fragment re-parse used by
   match validation is modelled by a small TOML fragment parser covering the
   fragment language the tool manipulates (comments, bare keys, strings,
   multi-line strings, integers, booleans, arrays, table headers). -/

set_option maxRecDepth 20000

namespace CombineFiles

/-! Basic list utilities shared by the embedding. -/

/-- Python `"\n".join(s.split("\n"))` round-trips; we model `str.split("\n")`. -/

def splitNL : List Char → List (List Char)
  | [] => [[]]
  | c :: cs =>
    if c = '\n' then [] :: splitNL cs
    else
      match splitNL cs with
      | [] => [[c]]
      | h :: t => (c :: h) :: t

/-- Model of `"\n".join(lines)`. -/

def joinNL : List (List Char) → List Char
  | [] => []
  | [l] => l
  | l :: ls => l ++ '\n' :: joinNL ls

/-- `content[a:b]` for a list of characters. -/

def extract (cs : List Char) (a b : Nat) : List Char :=
  (cs.take b).drop a

/-- `content[:p].count("\n")`: converts character offsets to 0-based line numbers. -/

def countNL (cs : List Char) (p : Nat) : Nat :=
  (cs.take p).count '\n'

/-- `content.rfind("\n", 0, p) + 1`: offset of the start of the physical line
containing position `p`. -/

def lineStartPos (cs : List Char) (p : Nat) : Nat :=
  p - ((cs.take p).reverse.takeWhile (fun c => !(c == '\n'))).length

/-- Substring test, as Python `needle in haystack`. -/

def isPre : List Char → List Char → Bool
  | [], _ => true
  | _ :: _, [] => false
  | a :: as, b :: bs => a == b && isPre as bs

def containsSub (needle : List Char) : List Char → Bool
  | [] => isPre needle []
  | c :: cs => isPre needle (c :: cs) || containsSub needle cs

/-- Python `s.endswith(suffix)`. -/

def endsWithL (suffix s : List Char) : Bool :=
  isPre suffix.reverse s.reverse

/-! The variable expander: `expand_default_values` and `expand_path_variables`. -/

/-- Association-list model of the Python `path_vars` dict (unique keys,
insertion order preserved). -/

abbrev VarMap := List (List Char × List Char)

def lookupVar (vars : VarMap) (k : List Char) : Option (List Char) :=
  match vars with
  | [] => none
  | (k1, v1) :: rest => if k1 = k then some v1 else lookupVar rest k

/-- One attempt of the regex `\$\{([^:}]+):-([^}]+)\}` anchored at the head of
the text: on success returns the variable name, the default text, and the
remaining input after the closing brace. -/

def tryDefault (cs : List Char) : Option (List Char × List Char × List Char) :=
  match cs with
  | c1 :: c2 :: r =>
    if c1 = '$' ∧ c2 = '{' then
      if (r.takeWhile fun c => !(c == ':' || c == '}')).isEmpty then none
      else
        match r.dropWhile fun c => !(c == ':' || c == '}') with
        | ':' :: '-' :: r2 =>
          if (r2.takeWhile fun c => !(c == '}')).isEmpty then none
          else
            match r2.dropWhile fun c => !(c == '}') with
            | '}' :: r4 =>
              some (r.takeWhile fun c => !(c == ':' || c == '}'),
                r2.takeWhile fun c => !(c == '}'), r4)
            | _ => none
        | _ => none
    else none
  | _ => none

/-- Scanner for `expand_default_values`: scan left to right, replacing each
`${VAR:-default}` occurrence with `path_vars[VAR]` when present, otherwise
with the default text.  Structural recursion on a fuel argument (each step
consumes at least one input character, so `fuel = length` suffices; an
exhausted scanner returns the rest of the input unchanged). -/

def expandDefaultsGo (vars : VarMap) : Nat → List Char → List Char
  | _, [] => []
  | 0, c :: cs => c :: cs
  | fuel + 1, c :: cs =>
    match tryDefault (c :: cs) with
    | some (name, dflt, rest) =>
      (lookupVar vars name).getD dflt ++ expandDefaultsGo vars fuel rest
    | none => c :: expandDefaultsGo vars fuel cs

/-- Model of `expand_default_values`. -/

def expandDefaultValues (vars : VarMap) (cs : List Char) : List Char :=
  expandDefaultsGo vars cs.length cs

/-- Whether the text contains any `${VAR:-default}` occurrence. -/

def hasDefaultPattern : List Char → Bool
  | [] => false
  | c :: cs => (tryDefault (c :: cs)).isSome || hasDefaultPattern cs

/-- Identifier characters for the `$VAR` word boundary: `[A-Za-z0-9_]`. -/

def isIdentChar (c : Char) : Bool :=
  (65 ≤ c.toNat && c.toNat ≤ 90) || (97 ≤ c.toNat && c.toNat ≤ 122) ||
    (48 ≤ c.toNat && c.toNat ≤ 57) || c == '_'

/-- The lookahead `(?=[^A-Za-z0-9_]|$)` applied to the input remaining after
`$NAME`. -/

def boundaryOk : List Char → Bool
  | [] => true
  | c :: _ => !(isIdentChar c)

/-- Python `str.replace(pat, v)` for a nonempty pattern `p0 :: ps`:
left-to-right, non-overlapping, replacements not rescanned. -/

def replaceAllGo (p0 : Char) (ps : List Char) (v : List Char) : Nat → List Char → List Char
  | _, [] => []
  | 0, c :: cs => c :: cs
  | fuel + 1, c :: cs =>
    if isPre (p0 :: ps) (c :: cs) then
      v ++ replaceAllGo p0 ps v fuel (cs.drop ps.length)
    else c :: replaceAllGo p0 ps v fuel cs

def replaceAll (p0 : Char) (ps : List Char) (v : List Char) (cs : List Char) : List Char :=
  replaceAllGo p0 ps v cs.length cs

/-! Model of `re.sub(rf"\${name}(?=[^A-Za-z0-9_]|$)", variable_value, text)`.

`re.sub` with a string replacement first processes the replacement as a
template (CPython `re._parser.parse_template`): known escapes such as
`\n` are translated to the escaped character, `\g<...>` and `\1`..`\99`
are group references, octal escapes are translated, an unknown escape of
an ASCII letter raises `re.error`, and an unknown escape of a non-letter
keeps the backslash.  The template is compiled before matching, so an
invalid template raises even when the pattern never matches; a
replacement without any backslash is used literally.  The pattern built
by `expand_path_variables` has no capturing groups (the lookahead is not
a group), so only group 0 — the whole match, which is exactly `$NAME` —
is referenceable. -/

/-- Split the input at the first occurrence of `q`. -/
def splitAtChar (q : Char) : List Char → Option (List Char × List Char)
  | [] => none
  | c :: cs =>
    if c = q then some ([], cs)
    else
      match splitAtChar q cs with
      | some (content, r) => some (c :: content, r)
      | none => none

/-- A `re.error` (or the `IndexError` for an unknown group name) raised while
compiling a replacement template. -/
inductive ReError where
  | badEscapeEnd : ReError
  | badEscape (c : Char) : ReError
  | missingGroupName : ReError
  | unterminatedGroupName : ReError
  | badGroupName : ReError
  | unknownGroupName (name : List Char) : ReError
  | invalidGroupRef (n : Nat) : ReError
  | octalOutOfRange : ReError
  deriving DecidableEq

/-- One piece of a compiled replacement template: a literal character or a
group reference. -/
inductive TChunk where
  | lit (c : Char) : TChunk
  | group (n : Nat) : TChunk
  deriving DecidableEq

def isOctDigit (c : Char) : Bool := 48 ≤ c.toNat && c.toNat ≤ 55

def isAsciiLetter (c : Char) : Bool :=
  (65 ≤ c.toNat && c.toNat ≤ 90) || (97 ≤ c.toNat && c.toNat ≤ 122)

def natOfDigits (ds : List Char) : Nat :=
  ds.foldl (fun a c => a * 10 + (c.toNat - 48)) 0

def octVal (ds : List Char) : Nat :=
  ds.foldl (fun a c => a * 8 + (c.toNat - 48)) 0

/-- Python `name.isidentifier()`, restricted to ASCII. -/
def isPyIdentName (name : List Char) : Bool :=
  match name with
  | [] => false
  | c :: rest => (isAsciiLetter c || c == '_') && rest.all (fun d => isIdentChar d)

/-- CPython `re._parser.parse_template` for a pattern with `groups` capturing
groups; fuel-bounded (each step consumes at least one character, so
`fuel = length + 1` suffices and the exhaustion arm is never reached). -/
def parseTemplateGo (groups : Nat) : Nat → List Char → Except ReError (List TChunk)
  | 0, _ => .error .badEscapeEnd
  | _ + 1, [] => .ok []
  | fuel + 1, c :: rest =>
    if c = '\\' then
      match rest with
      | [] => .error .badEscapeEnd
      | e :: r =>
        if e = 'g' then
          match r with
          | '<' :: r2 =>
            match splitAtChar '>' r2 with
            | none => .error .unterminatedGroupName
            | some (name, r4) =>
              if name.isEmpty then .error .missingGroupName
              else if name.all (fun d => d.isDigit) then
                if natOfDigits name ≤ groups then
                  (parseTemplateGo groups fuel r4).map
                    (fun ch => .group (natOfDigits name) :: ch)
                else .error (.invalidGroupRef (natOfDigits name))
              else if isPyIdentName name then .error (.unknownGroupName name)
              else .error .badGroupName
          | _ => .error .missingGroupName
        else if e = '0' then
          match r with
          | d1 :: r2 =>
            if isOctDigit d1 then
              match r2 with
              | d2 :: r3 =>
                if isOctDigit d2 then
                  (parseTemplateGo groups fuel r3).map
                    (fun ch => .lit (Char.ofNat (octVal [d1, d2])) :: ch)
                else
                  (parseTemplateGo groups fuel r2).map
                    (fun ch => .lit (Char.ofNat (octVal [d1])) :: ch)
              | [] =>
                (parseTemplateGo groups fuel r2).map
                  (fun ch => .lit (Char.ofNat (octVal [d1])) :: ch)
            else
              (parseTemplateGo groups fuel r).map (fun ch => .lit (Char.ofNat 0) :: ch)
          | [] => (parseTemplateGo groups fuel r).map (fun ch => .lit (Char.ofNat 0) :: ch)
        else if e.isDigit then
          match r with
          | d2 :: r2 =>
            if d2.isDigit then
              match r2 with
              | d3 :: r3 =>
                if isOctDigit e ∧ isOctDigit d2 ∧ isOctDigit d3 then
                  if octVal [e, d2, d3] > 255 then .error .octalOutOfRange
                  else
                    (parseTemplateGo groups fuel r3).map
                      (fun ch => .lit (Char.ofNat (octVal [e, d2, d3])) :: ch)
                else if natOfDigits [e, d2] ≤ groups then
                  (parseTemplateGo groups fuel r2).map
                    (fun ch => .group (natOfDigits [e, d2]) :: ch)
                else .error (.invalidGroupRef (natOfDigits [e, d2]))
              | [] =>
                if natOfDigits [e, d2] ≤ groups then
                  (parseTemplateGo groups fuel []).map
                    (fun ch => .group (natOfDigits [e, d2]) :: ch)
                else .error (.invalidGroupRef (natOfDigits [e, d2]))
            else if natOfDigits [e] ≤ groups then
              (parseTemplateGo groups fuel r).map (fun ch => .group (natOfDigits [e]) :: ch)
            else .error (.invalidGroupRef (natOfDigits [e]))
          | [] =>
            if natOfDigits [e] ≤ groups then
              (parseTemplateGo groups fuel []).map (fun ch => .group (natOfDigits [e]) :: ch)
            else .error (.invalidGroupRef (natOfDigits [e]))
        else if e = 'a' then
          (parseTemplateGo groups fuel r).map (fun ch => .lit (Char.ofNat 7) :: ch)
        else if e = 'b' then
          (parseTemplateGo groups fuel r).map (fun ch => .lit (Char.ofNat 8) :: ch)
        else if e = 'f' then
          (parseTemplateGo groups fuel r).map (fun ch => .lit (Char.ofNat 12) :: ch)
        else if e = 'n' then
          (parseTemplateGo groups fuel r).map (fun ch => .lit '\n' :: ch)
        else if e = 'r' then
          (parseTemplateGo groups fuel r).map (fun ch => .lit (Char.ofNat 13) :: ch)
        else if e = 't' then
          (parseTemplateGo groups fuel r).map (fun ch => .lit '\t' :: ch)
        else if e = 'v' then
          (parseTemplateGo groups fuel r).map (fun ch => .lit (Char.ofNat 11) :: ch)
        else if e = '\\' then
          (parseTemplateGo groups fuel r).map (fun ch => .lit '\\' :: ch)
        else if isAsciiLetter e then .error (.badEscape e)
        else (parseTemplateGo groups fuel r).map (fun ch => .lit '\\' :: .lit e :: ch)
    else (parseTemplateGo groups fuel rest).map (fun ch => .lit c :: ch)

def parseTemplate (groups : Nat) (repl : List Char) : Except ReError (List TChunk) :=
  parseTemplateGo groups (repl.length + 1) repl

/-- Expand a compiled template at one match: group 0 is the whole match; the
pattern has no other groups, so higher indices are rejected at compile time. -/
def expandTemplate (chunks : List TChunk) (matched : List Char) : List Char :=
  chunks.flatMap (fun ch =>
    match ch with
    | .lit c => [c]
    | .group 0 => matched
    | .group _ => [])

/-- The scan of `re.sub`: replace `$NAME` only at a word boundary (the
lookahead does not consume input), substituting the expanded template; the
matched text is exactly `$NAME`. -/
def subDollarTGo (name : List Char) (chunks : List TChunk) : Nat → List Char → List Char
  | _, [] => []
  | 0, c :: cs => c :: cs
  | fuel + 1, c :: cs =>
    if isPre ('$' :: name) (c :: cs) && boundaryOk (cs.drop name.length) then
      expandTemplate chunks ('$' :: name) ++ subDollarTGo name chunks fuel (cs.drop name.length)
    else c :: subDollarTGo name chunks fuel cs

def subDollarT (name : List Char) (chunks : List TChunk) (cs : List Char) : List Char :=
  subDollarTGo name chunks cs.length cs

/-- `re.sub(rf"\${name}(?=[^A-Za-z0-9_]|$)", repl, cs)`: a replacement
containing a backslash is compiled as a template before matching (so an
invalid template raises even with zero matches); a backslash-free
replacement is used literally. -/
def reSub (name repl cs : List Char) : Except ReError (List Char) :=
  if repl.contains '\\' then
    match parseTemplate 0 repl with
    | .error e => .error e
    | .ok chunks => .ok (subDollarT name chunks cs)
  else .ok (subDollarT name (repl.map TChunk.lit) cs)

/-- Whether a replacement value compiles as a template (backslash-free values
always do). -/
def validReplTemplate (repl : List Char) : Bool :=
  if repl.contains '\\' then
    match parseTemplate 0 repl with
    | .ok _ => true
    | .error _ => false
  else true

/-- All values of the map compile as replacement templates; exactly the maps
on which `expand_path_variables` cannot raise `re.error`. -/
def templatesOk (vars : VarMap) : Bool :=
  vars.all (fun nv => validReplTemplate nv.2)

/-- One iteration of the `for variable_name, variable_value in path_vars.items()`
loop: `${VAR}` literal replacement, then the boundary-checked `re.sub` of
`$VAR`.  This is the total restriction used by the dual-view layer; where
Python raises `re.error` (an invalid replacement template) there is no Python
result and this variant leaves the text unchanged — `expandPathVariablesE`
below is the faithful error-aware model, and `expandPathVariablesE_agrees`
relates the two on the non-raising domain. -/
def expandVarStep (acc : List Char) (nv : List Char × List Char) : List Char :=
  match reSub nv.1 nv.2 (replaceAll '$' ('{' :: (nv.1 ++ ['}'])) nv.2 acc) with
  | .ok r => r
  | .error _ => replaceAll '$' ('{' :: (nv.1 ++ ['}'])) nv.2 acc

/-- Total restriction of `expand_path_variables` (see `expandVarStep`):
defaults pass always runs; the per-variable pass only runs when `path_vars`
is non-empty (Python dict truthiness). -/
def expandPathVariables (s : List Char) (vars : VarMap) : List Char :=
  let r := expandDefaultValues vars s
  match vars with
  | [] => r
  | _ :: _ => vars.foldl expandVarStep r

/-- The per-variable loop with the `re.error` path: the first invalid
replacement template aborts the loop. -/
def foldVarsE : VarMap → List Char → Except ReError (List Char)
  | [], acc => .ok acc
  | nv :: rest, acc =>
    match reSub nv.1 nv.2 (replaceAll '$' ('{' :: (nv.1 ++ ['}'])) nv.2 acc) with
    | .ok r => foldVarsE rest r
    | .error e => .error e

/-- Faithful model of `expand_path_variables`, including the `re.error`
raised by `re.sub` when a variable value is an invalid replacement template
(raised per variable regardless of whether the pattern matches). -/
def expandPathVariablesE (s : List Char) (vars : VarMap) : Except ReError (List Char) :=
  let r := expandDefaultValues vars s
  match vars with
  | [] => .ok r
  | _ :: _ => foldVarsE vars r

/-! The dual-view config model: class `ConfigContent`. -/

/-- Python `ValueError` / `IndexError` raised by `ConfigContent.replace_lines`,
modelled as returned values rather than unwinding. -/

inductive PyErr where
  | indexError : PyErr
  | valueError (msg : List Char) : PyErr
  deriving DecidableEq

/-- State of a `ConfigContent` object: the original lines, the derived
expanded lines, and the expanded-to-original line map. -/

structure ConfigContent where
  pathVars : VarMap
  originalLines : List (List Char)
  expandedLines : List (List Char)
  lineMap : List Nat
  deriving DecidableEq

/-- The loop body of `_build_expanded`: expand each original line, split the
result on newlines, and point every resulting expanded line back at the
original line index. -/

def buildExpanded (vars : VarMap) : List (List Char) → Nat → List (List Char) × List Nat
  | [], _ => ([], [])
  | l :: ls, i =>
    (splitNL (expandPathVariables l vars) ++ (buildExpanded vars ls (i + 1)).1,
      (splitNL (expandPathVariables l vars)).map (fun _ => i) ++
        (buildExpanded vars ls (i + 1)).2)

/-- Rebuild a `ConfigContent` from original lines (`_build_expanded`). -/

def mkFromLines (vars : VarMap) (lines : List (List Char)) : ConfigContent :=
  ⟨vars, lines, (buildExpanded vars lines 0).1, (buildExpanded vars lines 0).2⟩

/-- `ConfigContent.__init__`: split the raw text on newlines and build the
expanded view. -/

def mkConfigContent (text : List Char) (vars : VarMap) : ConfigContent :=
  mkFromLines vars (splitNL text)

/-- `ConfigContent.get_original()`. -/

def getOriginal (c : ConfigContent) : List Char :=
  joinNL c.originalLines

/-- `ConfigContent.get_expanded()`. -/

def getExpanded (c : ConfigContent) : List Char :=
  joinNL c.expandedLines

/-- Message of the `ValueError` raised when a replacement would span a
multi-line variable expansion. -/

def replaceErrMsg (n cnt : Nat) : List Char :=
  ("Cannot replace: original line ".data ++ (Nat.repr n).data ++
    " expanded to ".data ++ (Nat.repr cnt).data ++
    " lines. Replacing part of a multi-line variable expansion is not supported.".data)

/-- `ConfigContent.replace_lines(exp_start, exp_end, replacement_text)`.
Returns the raised error (if any) together with the object state after the
call; all validation happens before any mutation, so the error branches
return the input state unchanged.  An out-of-range expanded index raises
`IndexError` in Python (`self.line_map[exp_start]`); Python list slice
assignment clamps an inverted range, hence the `max`. -/

def replaceLines (c : ConfigContent) (s e : Nat) (r : List Char) :
    Option PyErr × ConfigContent :=
  match c.lineMap.get? s, c.lineMap.get? e with
  | some os, some oe =>
    match (List.range' os (oe + 1 - os)).find? (fun n => decide (1 < c.lineMap.count n)) with
    | some n => (some (.valueError (replaceErrMsg n (c.lineMap.count n))), c)
    | none =>
      (none, mkFromLines c.pathVars
        (c.originalLines.take os ++ splitNL r ++ c.originalLines.drop (max os (oe + 1))))
  | _, _ => (some .indexError, c)

/-! Model of the external tomlkit library.

A parsed tomlkit item carries both the unwrapped Python value and the
style-preserving raw representation of the value (`tomlkit.dumps` of the
single-key document, with the `key = ` front removed, is exactly this raw
text; that is what `_extract_normalized_value` computes).  A parsed document
is an ordered key-item association list. -/

/-- A tomlkit item: raw style-preserved value text plus the value itself. -/

inductive TomlItem where
  | iStr (raw : List Char) (s : List Char) : TomlItem
  | iInt (raw : List Char) (n : Int) : TomlItem
  | iBool (raw : List Char) (b : Bool) : TomlItem
  | iArr (raw : List Char) (xs : List TomlItem) : TomlItem
  | iTable (raw : List Char) (kvs : List (List Char × TomlItem)) : TomlItem

/-- Style-preserved serialization of the item value, as returned by
`_extract_normalized_value`. -/

def TomlItem.raw : TomlItem → List Char
  | .iStr r _ => r
  | .iInt r _ => r
  | .iBool r _ => r
  | .iArr r _ => r
  | .iTable r _ => r

/-- A plain (unwrapped) Python value, as produced by `_unwrap_tomlkit_value`. -/

inductive PyVal where
  | pStr (s : List Char) : PyVal
  | pInt (n : Int) : PyVal
  | pBool (b : Bool) : PyVal
  | pArr (xs : List PyVal) : PyVal
  | pDict (kvs : List (List Char × PyVal)) : PyVal

mutual

/-- `_unwrap_tomlkit_value`: strip the tomlkit wrappers down to plain values. -/
def unwrapItem : TomlItem → PyVal
  | .iStr _ s => .pStr s
  | .iInt _ n => .pInt n
  | .iBool _ b => .pBool b
  | .iArr _ xs => .pArr (unwrapItems xs)
  | .iTable _ kvs => .pDict (unwrapKVs kvs)

def unwrapItems : List TomlItem → List PyVal
  | [] => []
  | x :: xs => unwrapItem x :: unwrapItems xs

def unwrapKVs : List (List Char × TomlItem) → List (List Char × PyVal)
  | [] => []
  | (k, v) :: xs => (k, unwrapItem v) :: unwrapKVs xs

end

/-- A parsed tomlkit document (ordered top-level key-item pairs). -/

abbrev TomlDoc := List (List Char × TomlItem)

/-- Python `key in doc` / `doc[key]` on an ordered mapping. -/

def lookupKey (kvs : List (List Char × TomlItem)) (k : List Char) : Option TomlItem :=
  match kvs with
  | [] => none
  | (k1, v) :: rest => if k1 = k then some v else lookupKey rest k

/-- `_search_table_arrays_for_key`: for a top-level table value, look inside
each subtable that is an array of tables and collect the values bound to the
key in each entry. -/

def searchTableArraysForKey (tv : TomlItem) (key : List Char) : List TomlItem :=
  match tv with
  | .iTable _ kvs =>
    (kvs.map (fun kv => kv.2)).flatMap (fun sub =>
      match sub with
      | .iArr _ items =>
        items.filterMap (fun it =>
          match it with
          | .iTable _ t => lookupKey t key
          | _ => none)
      | _ => [])
  | _ => []

/-- `_find_all_keys_in_toml`: top-level occurrence first, then occurrences
inside `[[table.subtable]]` arrays. -/

def findAllKeysInToml (doc : TomlDoc) (key : List Char) : List TomlItem :=
  (match lookupKey doc key with
   | some it => [it]
   | none => []) ++
    (doc.map (fun kv => kv.2)).flatMap (fun tv => searchTableArraysForKey tv key)

/-! Model of `tomlkit.parse` on the validation slices used by
`_is_valid_toml_match`.

The fragment parser covers the TOML fragment language the tool manipulates:
blank lines, comment lines, bare-key `key = value` bindings (basic and
literal strings, their multi-line forms, integers, booleans, arrays), and
table / array-of-tables headers.  It returns the list of top-level keys
(`key_name in doc` only inspects top-level keys; keys after a table header
are not top-level).  Inputs outside this fragment (escape sequences, quoted
keys, floats, dates) are rejected, which only ever makes the modelled
validation more conservative.  Duplicate top-level keys are an error, as in
tomlkit. -/

/-- The single-quote character, used by TOML literal strings. -/

def sq : Char := Char.ofNat 39

/-- The TOML multi-line literal string delimiter. -/

def sq3 : List Char := [sq, sq, sq]

def isWsNT (c : Char) : Bool := c == ' ' || c == '\t'

def isBareKeyChar (c : Char) : Bool := c.isAlphanum || c == '_' || c == '-'

/-- Split the input at the first occurrence of three consecutive `q`
characters, returning the content before and the rest after. -/

def splitAtTriple (q : Char) : List Char → Option (List Char × List Char)
  | [] => none
  | c :: cs =>
    if isPre [q, q, q] (c :: cs) then some ([], cs.drop 2)
    else
      match splitAtTriple q cs with
      | some (content, r) => some (c :: content, r)
      | none => none

/-- Skip whitespace (including newlines) and comments, as allowed inside a
TOML array; fuel-bounded. -/

def skipWsC : Nat → List Char → List Char
  | 0, cs => cs
  | fuel + 1, cs =>
    match cs.dropWhile (fun c => c == ' ' || c == '\t' || c == '\n' || c == '\r') with
    | '#' :: rest => skipWsC fuel (rest.dropWhile (fun c => !(c == '\n')))
    | other => other

mutual

/-- Consume one TOML value, returning the rest of the input. -/
def parseValueSkip : Nat → List Char → Option (List Char)
  | 0, _ => none
  | fuel + 1, cs =>
    if isPre ['"', '"', '"'] cs then
      match splitAtTriple '"' (cs.drop 3) with
      | some (content, rest) => if '\\' ∈ content then none else some rest
      | none => none
    else if isPre sq3 cs then
      match splitAtTriple sq (cs.drop 3) with
      | some (_, rest) => some rest
      | none => none
    else
      match cs with
      | [] => none
      | c :: r =>
        if c = '"' then
          match splitAtChar '"' r with
          | some (content, rest) =>
            if '\n' ∈ content ∨ '\\' ∈ content then none else some rest
          | none => none
        else if c = sq then
          match splitAtChar sq r with
          | some (content, rest) => if '\n' ∈ content then none else some rest
          | none => none
        else if c = '[' then arrayElems fuel r
        else if c = 't' then (if isPre "rue".data r then some (r.drop 3) else none)
        else if c = 'f' then (if isPre "alse".data r then some (r.drop 4) else none)
        else if c.isDigit then some (r.dropWhile (fun d => d.isDigit))
        else if c = '-' ∨ c = '+' then
          match r with
          | d :: _ => if d.isDigit then some (r.dropWhile (fun x => x.isDigit)) else none
          | [] => none
        else none

/-- Consume the elements of an array after the opening bracket, including the
closing bracket. -/
def arrayElems : Nat → List Char → Option (List Char)
  | 0, _ => none
  | fuel + 1, cs =>
    match skipWsC (cs.length + 1) cs with
    | ']' :: rest => some rest
    | cs1 =>
      match parseValueSkip fuel cs1 with
      | some r2 =>
        match skipWsC (r2.length + 1) r2 with
        | ',' :: r4 => arrayElems fuel r4
        | ']' :: rest => some rest
        | _ => none
      | none => none

end

/-- Consume trailing whitespace, an optional comment, and the line break (or
end of input); returns the rest of the input after the line. -/

def lineEnd (cs : List Char) : Option (List Char) :=
  match cs.dropWhile isWsNT with
  | [] => some []
  | '\n' :: rest => some rest
  | '#' :: rest =>
    match rest.dropWhile (fun c => !(c == '\n')) with
    | [] => some []
    | '\n' :: r2 => some r2
    | _ => none
  | _ => none

/-- Top-level loop of the fragment parser: collect top-level keys, treat keys
after a table header as non-top-level, reject duplicates and anything outside
the fragment language. -/

def parseTomlGo : Nat → List Char → List (List Char) → Bool → Option (List (List Char))
  | 0, _, _, _ => none
  | fuel + 1, cs, acc, inT =>
    match cs.dropWhile isWsNT with
    | [] => some acc
    | '\n' :: rest => parseTomlGo fuel rest acc inT
    | '#' :: rest => parseTomlGo fuel (rest.dropWhile (fun c => !(c == '\n'))) acc inT
    | '[' :: rest =>
      match
        (match rest with
         | '[' :: r => (true, r)
         | _ => (false, rest)) with
      | (isAoT, r1) =>
        if (r1.takeWhile (fun c => !(c == ']' || c == '\n'))).isEmpty then none
        else
          match r1.dropWhile (fun c => !(c == ']' || c == '\n')) with
          | ']' :: r3 =>
            if isAoT then
              match r3 with
              | ']' :: r4 =>
                match lineEnd r4 with
                | some r5 => parseTomlGo fuel r5 acc true
                | none => none
              | _ => none
            else
              match lineEnd r3 with
              | some r5 => parseTomlGo fuel r5 acc true
              | none => none
          | _ => none
    | c :: rest =>
      if isBareKeyChar c then
        match ((c :: rest).dropWhile isBareKeyChar).dropWhile isWsNT with
        | '=' :: r2 =>
          match parseValueSkip (r2.length + 1) (r2.dropWhile isWsNT) with
          | some r3 =>
            match lineEnd r3 with
            | some r4 =>
              if inT then parseTomlGo fuel r4 acc inT
              else if acc.contains ((c :: rest).takeWhile isBareKeyChar) then none
              else parseTomlGo fuel r4 (acc ++ [(c :: rest).takeWhile isBareKeyChar]) inT
            | none => none
          | none => none
        | _ => none
      else none

/-- `tomlkit.parse` on a validation slice, reduced to its top-level keys. -/

def parseTomlKeys (cs : List Char) : Option (List (List Char)) :=
  parseTomlGo (cs.length + 1) cs [] false

/-! The TOML match locator: `find_valid_toml_matches` and its helpers. -/

/-- Python regex `\s`. -/

def isPyWs (c : Char) : Bool :=
  c == ' ' || c == '\t' || c == '\n' || c == '\r' || c == Char.ofNat 11 ||
    c == Char.ofNat 12

/-- Greedy `\s*` before the escaped value literal: try the maximal run of
whitespace first and backtrack until the literal matches. -/

def backtrackWs (val t3 : List Char) : Nat → Option Nat
  | 0 => if isPre val t3 then some 0 else none
  | t + 1 => if isPre val (t3.drop (t + 1)) then some (t + 1) else backtrackWs val t3 t

/-- Attempt of the regex `key\s*=\s*<escaped value>` (MULTILINE, DOTALL; both
`key` and the value literal are `re.escape`d, so they match literally) at
offset `i`; returns the end offset on success. -/

def matchAt (cs : List Char) (i : Nat) (key val : List Char) : Option Nat :=
  if isPre key (cs.drop i) then
    match ((cs.drop i).drop key.length).drop
        (((cs.drop i).drop key.length).takeWhile isPyWs).length with
    | '=' :: t3 =>
      match backtrackWs val t3 (t3.takeWhile isPyWs).length with
      | some t =>
        some (i + key.length + (((cs.drop i).drop key.length).takeWhile isPyWs).length +
          1 + t + val.length)
      | none => none
    | _ => none
  else none

/-- `re.finditer`: scan offsets left to right; on a match, continue scanning
at the match end (non-overlapping), otherwise advance one position. -/

def finditerGo (cs key val : List Char) : Nat → Nat → List (Nat × Nat)
  | 0, _ => []
  | fuel + 1, i =>
    if cs.length < i then []
    else
      match matchAt cs i key val with
      | some e => (i, e) :: finditerGo cs key val fuel e
      | none => finditerGo cs key val fuel (i + 1)

def finditer (cs key val : List Char) : List (Nat × Nat) :=
  finditerGo cs key val (cs.length + 2) 0

/-- `_is_valid_toml_match`: re-parse the slice from the start of the hit's
physical line through the hit's end and check the key is a top-level key. -/

def validTomlMatch (content : List Char) (s e : Nat) (key : List Char) : Bool :=
  match parseTomlKeys (extract content (lineStartPos content s) e) with
  | some keys => keys.contains key
  | none => false

/-- One located match: the tuple
`(snippet, parsed_value, exp_start, exp_end, indent)` returned by
`find_valid_toml_matches`, plus the character offsets `snippet_start` /
`snippet_end` the source computes the line numbers and indent from. -/

structure TomlMatch where
  snippet : List Char
  value : PyVal
  expStart : Nat
  expEnd : Nat
  indent : Nat
  startPos : Nat
  endPos : Nat

def mkMatch (content : List Char) (s e : Nat) (pv : PyVal) : TomlMatch :=
  ⟨extract content s e, pv, countNL content s, countNL content e,
    s - lineStartPos content s, s, e⟩

/-- Inner loop over the regex hits of one serialized value: skip positions
already found, validate the rest by re-parsing, record accepted positions. -/

def processHits (content key : List Char) (pv : PyVal) :
    List (Nat × Nat) → List Nat → List TomlMatch × List Nat
  | [], seen => ([], seen)
  | (s, e) :: hs, seen =>
    if seen.contains s then processHits content key pv hs seen
    else if validTomlMatch content s e key then
      (mkMatch content s e pv :: (processHits content key pv hs (s :: seen)).1,
        (processHits content key pv hs (s :: seen)).2)
    else processHits content key pv hs seen

/-- Outer loop of `find_valid_toml_matches` over the parsed values; the set of
already-found positions is shared across values. -/

def goVals (content key : List Char) : List TomlItem → List Nat → List TomlMatch
  | [], _ => []
  | it :: rest, seen =>
    (processHits content key (unwrapItem it) (finditer content key it.raw) seen).1 ++
      goVals content key rest
        (processHits content key (unwrapItem it) (finditer content key it.raw) seen).2

/-- `find_valid_toml_matches(config_obj, key_name)`, as a function of the
expanded content and the tomlkit parse of that content. -/

def findValidTomlMatches (content key : List Char) (doc : TomlDoc) : List TomlMatch :=
  goVals content key (findAllKeysInToml doc key) []

/-- The match at offset `p` starts on a commented-out line: the part of its
physical line before the match is whitespace followed by `#`. -/

def liesOnCommentedLine (cs : List Char) (p : Nat) : Bool :=
  ((extract cs (lineStartPos cs p) p).dropWhile isWsNT).head? == some '#'

/-! Concrete inputs used to exercise the locator. -/

/-- A fragment whose `script` key takes the same serialized value in its first
and third array-of-tables entries and a different one in the second. -/

def c3content : List Char :=
  ("[[p.s]]\nscript = \"a.star\"\n[[p.s]]\nscript = \"b.star\"\n" ++
    "[[p.s]]\nscript = \"a.star\"").data

/-- The tomlkit parse of `c3content`. -/

def c3doc : TomlDoc :=
  [("p".data, .iTable []
    [("s".data, .iArr []
      [.iTable [] [("script".data, .iStr "\"a.star\"".data "a.star".data)],
       .iTable [] [("script".data, .iStr "\"b.star\"".data "b.star".data)],
       .iTable [] [("script".data, .iStr "\"a.star\"".data "a.star".data)]])])]

/-- A fragment with a commented-out `script` binding whose multi-line string
value re-binds `script` on the following (uncommented) lines, plus the real
binding with that multi-line string value. -/

def c1content : List Char :=
  ("[[p.s]]\n# script = \"\"\"\nscript = \"b\"\n# \"\"\"\n" ++
    "[[p.s]]\nscript = \"\"\"\nscript = \"b\"\n# \"\"\"").data

/-- The tomlkit parse of `c1content`: the first entry binds `script` to the
string `b`; the second binds it to the multi-line basic string whose
style-preserved serialization spans three physical lines. -/

def c1doc : TomlDoc :=
  [("p".data, .iTable []
    [("s".data, .iArr []
      [.iTable [] [("script".data, .iStr "\"b\"".data "b".data)],
       .iTable [] [("script".data,
         .iStr "\"\"\"\nscript = \"b\"\n# \"\"\"".data "script = \"b\"\n# ".data)]])])]

/-- A single-binding fragment used as a witness input for the locator claims. -/

def c1wContent : List Char := "# script = \"x\"\nscript = \"x\"".data

/-- The tomlkit parse of `c1wContent`. -/

def c1wDoc : TomlDoc := [("script".data, .iStr "\"x\"".data "x".data)]

/-! The script inliners.

Fatal conditions (`sys.exit(1)` or an uncaught `ValueError`) are modelled as
returned `Fatal` values; the warning emitted for a non-shell `command`
reference is returned alongside the result.  The file system is modelled as a
mapping from root-relative paths to file contents (`find_file` checks
`(Path(root)/filename).exists()`). -/

/-- A fatal abort of the combine operation. -/

inductive Fatal where
  | fileNotFound (scriptType ref : List Char) : Fatal
  | tripleQuote (contentType : List Char) (ctx : List (List Char × List Char)) : Fatal
  | invalidCommandArray : Fatal
  | typeErr : Fatal
  | pyError (e : PyErr) : Fatal
  deriving DecidableEq

/-- `find_file(filename, root_path)` over the modelled file system. -/

def findFile (filename : List Char) (fs : List (List Char × List Char)) :
    Option (List Char) :=
  match fs with
  | [] => none
  | (p, content) :: rest => if p = filename then some content else findFile filename rest

/-- The replacement text built by `inline_starlark_script`:
`{indent}source = '''\n{script_content}'''`. -/

def starlarkReplacement (indent : Nat) (scriptContent : List Char) : List Char :=
  List.replicate indent ' ' ++ "source = ".data ++ sq3 ++ '\n' :: scriptContent ++ sq3

/-- The `for _snippet, path_str, start_line, end_line, indent in
reversed(matches)` loop of `inline_starlark_script`. -/

def inlineStarlarkGo (fs : List (List Char × List Char)) :
    List TomlMatch → ConfigContent → Except Fatal ConfigContent
  | [], cfg => .ok cfg
  | m :: rest, cfg =>
    match m.value with
    | .pStr pathStr =>
      match findFile pathStr fs with
      | none => .error (.fileNotFound "Starlark script".data pathStr)
      | some scriptContent =>
        if containsSub sq3 scriptContent then
          .error (.tripleQuote "Starlark script".data [("script".data, pathStr)])
        else
          match replaceLines cfg m.expStart m.expEnd
              (starlarkReplacement m.indent scriptContent) with
          | (none, cfg2) => inlineStarlarkGo fs rest cfg2
          | (some e, _) => .error (.pyError e)
    | _ => .error .typeErr

/-- `inline_starlark_script(config_content, file_path_root, path_vars)`, as a
function of the modelled file system and the tomlkit parse of the expanded
content. -/

def inlineStarlarkScript (content : List Char) (fs : List (List Char × List Char))
    (vars : VarMap) (doc : TomlDoc) : Except Fatal (List Char) :=
  match inlineStarlarkGo fs
      (findValidTomlMatches (getExpanded (mkConfigContent content vars))
        "script".data doc).reverse
      (mkConfigContent content vars) with
  | .ok cfg2 =>
    if (findValidTomlMatches (getExpanded (mkConfigContent content vars))
        "script".data doc).isEmpty then .ok content
    else .ok (getOriginal cfg2)
  | .error f => .error f

/-- Base64 alphabet. -/

def b64Table : List Char :=
  "ABCDEFGHIJKLMNOPQRSTUVWXYZabcdefghijklmnopqrstuvwxyz0123456789+/".data

def b64Char (n : Nat) : Char := b64Table.getD n 'A'

/-- `base64.b64encode` over a byte list. -/

def b64Encode : List Nat → List Char
  | [] => []
  | [b1] => [b64Char (b1 / 4), b64Char (b1 % 4 * 16), '=', '=']
  | [b1, b2] =>
    [b64Char (b1 / 4), b64Char (b1 % 4 * 16 + b2 / 16), b64Char (b2 % 16 * 4), '=']
  | b1 :: b2 :: b3 :: rest =>
    b64Char (b1 / 4) :: b64Char (b1 % 4 * 16 + b2 / 16) ::
      b64Char (b2 % 16 * 4 + b3 / 64) :: b64Char (b3 % 64) :: b64Encode rest

/-- UTF-8 encoding of one code point. -/

def utf8Bytes (c : Char) : List Nat :=
  if c.toNat < 128 then [c.toNat]
  else if c.toNat < 2048 then [192 + c.toNat / 64, 128 + c.toNat % 64]
  else if c.toNat < 65536 then
    [224 + c.toNat / 4096, 128 + c.toNat / 64 % 64, 128 + c.toNat % 64]
  else
    [240 + c.toNat / 262144, 128 + c.toNat / 4096 % 64, 128 + c.toNat / 64 % 64,
      128 + c.toNat % 64]

def utf8Encode (s : List Char) : List Nat := (s.map utf8Bytes).flatten

def hexDigit (n : Nat) : Char := "0123456789abcdef".data.getD n '0'

/-- One character of `json.dumps` output (`ensure_ascii=True`). -/

def jsonEscapeChar (c : Char) : List Char :=
  if c = '"' then ['\\', '"']
  else if c = '\\' then ['\\', '\\']
  else if c = '\n' then ['\\', 'n']
  else if c = '\t' then ['\\', 't']
  else if c = '\r' then ['\\', 'r']
  else if c.toNat = 8 then ['\\', 'b']
  else if c.toNat = 12 then ['\\', 'f']
  else if c.toNat < 32 then
    ['\\', 'u', '0', '0', hexDigit (c.toNat / 16), hexDigit (c.toNat % 16)]
  else if c.toNat < 127 then [c]
  else if c.toNat < 65536 then
    ['\\', 'u', hexDigit (c.toNat / 4096 % 16), hexDigit (c.toNat / 256 % 16),
      hexDigit (c.toNat / 16 % 16), hexDigit (c.toNat % 16)]
  else
    let n2 := c.toNat - 65536
    ['\\', 'u', 'd', hexDigit (8 + n2 / 1024 / 256), hexDigit (n2 / 1024 / 16 % 16),
      hexDigit (n2 / 1024 % 16)] ++
    ['\\', 'u', 'd', hexDigit (12 + n2 % 1024 / 256), hexDigit (n2 % 1024 / 16 % 16),
      hexDigit (n2 % 1024 % 16)]

/-- `json.dumps` of a string. -/

def jsonDumps (s : List Char) : List Char :=
  '"' :: (s.map jsonEscapeChar).flatten ++ ['"']

/-- `" ".join(parts)`. -/

def joinSpace : List (List Char) → List Char
  | [] => []
  | [x] => x
  | x :: xs => x ++ ' ' :: joinSpace xs

/-- Python `s.rstrip("\n")`. -/

def rstripNL (s : List Char) : List Char :=
  (s.reverse.dropWhile (fun c => c == '\n')).reverse

/-- `_replace_shell_script_with_inline(script_path, script_args)`: normalize
line endings, base64-encode, and build the self-decoding wrapper command. -/

def replaceShellScriptWithInline (scriptContent : List Char)
    (scriptArgs : List (List Char)) : List Char :=
  rstripNL
    ("command = [\"sh\", \"-c\", ".data ++ sq3 ++ '\n' ::
      "tmpfile=$(mktemp)\n".data ++
      "trap ".data ++ sq :: "rm -f \"$tmpfile\"".data ++ sq :: " EXIT\n".data ++
      "openssl base64 -d -A <<".data ++ sq :: "FIXEDIT_SCRIPT_EOF".data ++
        sq :: " >\"$tmpfile\"\n".data ++
      b64Encode (utf8Encode
        (replaceAll '\r' [] "\n".data (replaceAll '\r' ['\n'] "\n".data scriptContent))) ++
      '\n' :: "FIXEDIT_SCRIPT_EOF\n".data ++
      (if scriptArgs.isEmpty then "sh \"$tmpfile\"".data
       else "sh \"$tmpfile\" ".data ++ joinSpace (scriptArgs.map jsonDumps)) ++
      sq3 ++ "]\n".data)

/-- The warning emitted for a non-shell `command` reference. -/

def warnNotShell (p : List Char) : List Char :=
  "Warning: Skipping ".data ++ sq :: p ++ sq :: " - not a shell script (.sh)".data

/-- The argument-validation loop of `_process_shell_script_match`: check each
argument after the first for the triple-single-quote sequence, in order.  A
non-string argument makes the Python membership test `\"'''\" in arg` raise a
`TypeError`, modelled as `Fatal.typeErr`. -/

def validateShellArgsTQ (pathCtx : List Char) : List PyVal → Option Fatal
  | [] => none
  | .pStr s :: rest =>
    if containsSub sq3 s then
      some (.tripleQuote "Shell script argument".data
        [("script".data, pathCtx), ("argument".data, s)])
    else validateShellArgsTQ pathCtx rest
  | _ :: _ => some .typeErr

/-- String payload of a `PyVal`, defaulting to the empty string. -/

def pvToStrD : PyVal → List Char
  | .pStr s => s
  | _ => []

/-- Body of `_process_shell_script_match` as a function of the match's parsed
value: validate the command array, check the arguments for triple quotes,
then either warn and pass a non-`.sh` reference through unchanged or inline
the script. -/

def processShellValue (cfg : ConfigContent) (expStart expEnd indent : Nat)
    (fs : List (List Char × List Char)) :
    PyVal → Except Fatal (ConfigContent × List (List Char))
  | .pArr [] => .error .invalidCommandArray
  | .pArr (a0 :: args) =>
    match validateShellArgsTQ (pvToStrD a0) args with
    | some f => .error f
    | none =>
      match a0 with
      | .pStr p0 =>
        if endsWithL ".sh".data p0 then
          match findFile p0 fs with
          | none => .error (.fileNotFound "shell script".data p0)
          | some sc =>
            match replaceLines cfg expStart expEnd
                (List.replicate indent ' ' ++
                  replaceShellScriptWithInline sc (args.map pvToStrD)) with
            | (none, cfg2) => .ok (cfg2, [])
            | (some e, _) => .error (.pyError e)
        else .ok (cfg, [warnNotShell p0])
      | _ => .error .typeErr
  | _ => .error .invalidCommandArray

/-- `_process_shell_script_match(config_obj, match, file_path_root)`. -/

def processShellScriptMatch (cfg : ConfigContent) (m : TomlMatch)
    (fs : List (List Char × List Char)) :
    Except Fatal (ConfigContent × List (List Char)) :=
  processShellValue cfg m.expStart m.expEnd m.indent fs m.value

/-- The reverse-order loop of `inline_shell_script`, accumulating warnings. -/

def inlineShellGo (fs : List (List Char × List Char)) :
    List TomlMatch → ConfigContent → List (List Char) →
      Except Fatal (ConfigContent × List (List Char))
  | [], cfg, warns => .ok (cfg, warns)
  | m :: rest, cfg, warns =>
    match processShellScriptMatch cfg m fs with
    | .ok (cfg2, w) => inlineShellGo fs rest cfg2 (warns ++ w)
    | .error f => .error f

/-- `inline_shell_script(config_content, file_path_root, path_vars)`. -/

def inlineShellScript (content : List Char) (fs : List (List Char × List Char))
    (vars : VarMap) (doc : TomlDoc) : Except Fatal (List Char × List (List Char)) :=
  match inlineShellGo fs
      (findValidTomlMatches (getExpanded (mkConfigContent content vars))
        "command".data doc).reverse
      (mkConfigContent content vars) [] with
  | .ok (cfg2, warns) =>
    if (findValidTomlMatches (getExpanded (mkConfigContent content vars))
        "command".data doc).isEmpty then .ok (content, [])
    else .ok (getOriginal cfg2, warns)
  | .error f => .error f

/-- Whether a result is the triple-quote fatal abort. -/

def isTripleQuoteError (r : Except Fatal (ConfigContent × List (List Char))) : Bool :=
  match r with
  | .error (.tripleQuote _ _) => true
  | _ => false

/-- Every element is a string and none contains the triple-quote sequence. -/

def allStrNoTQ : List PyVal → Bool
  | [] => true
  | .pStr s :: rest => !containsSub sq3 s && allStrNoTQ rest
  | _ :: _ => false

/-- Every element is a string. -/

def allStr : List PyVal → Bool
  | [] => true
  | .pStr _ :: rest => allStr rest
  | _ :: _ => false

/-- Some element is a string containing the triple-quote sequence. -/

def anyStrTQ : List PyVal → Bool
  | [] => false
  | .pStr s :: rest => containsSub sq3 s || anyStrTQ rest
  | _ :: rest => anyStrTQ rest

/-! Concrete inputs for the end-to-end starlark scenario and the shell
inliner claims. -/

/-- The fragment of end-to-end scenario A. -/

def c6content : List Char := "script = \"a.star\"".data

/-- The content of `a.star`: the text `load('a.star','x')`. -/

def c6star : List Char :=
  "load(".data ++ sq :: "a.star".data ++ sq :: ",".data ++ sq :: "x".data ++
    sq :: ")".data

def c6fs : List (List Char × List Char) := [("a.star".data, c6star)]

/-- The tomlkit parse of `c6content`. -/

def c6doc : TomlDoc := [("script".data, .iStr "\"a.star\"".data "a.star".data)]

/-- The output the claim requires: `source = '''\nload('a.star','x')'''`. -/

def c6expected : List Char :=
  "source = ".data ++ sq3 ++ '\n' :: c6star ++ sq3

/-- An argument containing the triple-single-quote sequence. -/

def tqArg : List Char := 'a' :: sq3 ++ ['b']

/-- An empty config state used for the shell-inliner match claims. -/

def cfg0 : ConfigContent := mkConfigContent "x".data []

/-- A located `command` match whose first element is not a `.sh` script and
whose second element contains the triple-quote sequence. -/

def m0 : TomlMatch :=
  ⟨[], .pArr [.pStr "tool.bin".data, .pStr tqArg], 0, 0, 0, 0, 0⟩

/-! Theorems. -/

theorem splitNL_ne_nil (cs : List Char) : splitNL cs ≠ [] := by
  induction cs with
  | nil => simp [splitNL]
  | cons c cs ih =>
    simp only [splitNL]
    split
    · simp
    · cases h : splitNL cs with
      | nil => simp
      | cons h t => simp

theorem joinNL_splitNL (cs : List Char) : joinNL (splitNL cs) = cs := by
  induction cs with
  | nil => simp [splitNL, joinNL]
  | cons c cs ih =>
    simp only [splitNL]
    split
    · rename_i hc
      subst hc
      cases h : splitNL cs with
      | nil => exact absurd h (splitNL_ne_nil cs)
      | cons h t =>
        rw [h] at ih
        cases t with
        | nil => simp [joinNL, ← ih]
        | cons t1 ts => simp [joinNL, ← ih]
    · cases h : splitNL cs with
      | nil => exact absurd h (splitNL_ne_nil cs)
      | cons h2 t =>
        rw [h] at ih
        cases t with
        | nil => simp [joinNL, ← ih]
        | cons t1 ts => simp [joinNL, ← ih]

theorem not_newline_mem_splitNL (cs : List Char) :
    ∀ l ∈ splitNL cs, '\n' ∉ l := by
  induction cs with
  | nil => intro l hl; simp [splitNL] at hl; simp [hl]
  | cons c cs ih =>
    intro l hl
    simp only [splitNL] at hl
    split at hl
    · rcases List.mem_cons.mp hl with h | h
      · simp [h]
      · exact ih l h
    · rename_i hc
      cases h : splitNL cs with
      | nil => exact absurd h (splitNL_ne_nil cs)
      | cons h2 t =>
        rw [h] at hl
        rcases List.mem_cons.mp hl with h3 | h3
        · subst h3
          intro hmem
          rcases List.mem_cons.mp hmem with h4 | h4
          · exact hc h4.symm
          · exact ih h2 (by rw [h]; exact List.mem_cons_self _ _) h4
        · exact ih l (by rw [h]; exact List.mem_cons_of_mem _ h3)

theorem isPre_iff (p : List Char) : ∀ l, isPre p l = true ↔ p <+: l := by
  induction p with
  | nil => intro l; simp [isPre]
  | cons a as ih =>
    intro l
    cases l with
    | nil => simp [isPre]
    | cons b bs =>
      simp only [isPre, Bool.and_eq_true, beq_iff_eq]
      constructor
      · rintro ⟨rfl, h⟩
        exact (List.prefix_cons_inj a).mpr ((ih bs).mp h)
      · intro h
        rcases h with ⟨t, ht⟩
        injection ht with h1 h2
        exact ⟨h1, (ih bs).mpr ⟨t, h2⟩⟩

theorem length_dropWhile_le (p : Char → Bool) (l : List Char) :
    (l.dropWhile p).length ≤ l.length := by
  induction l with
  | nil => simp
  | cons c cs ih =>
    simp only [List.dropWhile]
    split
    · exact Nat.le_trans ih (Nat.le_succ _)
    · simp

theorem dropWhile_append_of_all (p : Char → Bool) (W T : List Char)
    (h : ∀ c ∈ W, p c = true) : (W ++ T).dropWhile p = T.dropWhile p := by
  induction W with
  | nil => simp
  | cons c cs ih =>
    simp only [List.cons_append, List.dropWhile]
    rw [h c (List.mem_cons_self _ _)]
    exact ih (fun x hx => h x (List.mem_cons_of_mem _ hx))

theorem dropWhile_eq_nil_of_all (p : Char → Bool) (T : List Char)
    (h : ∀ c ∈ T, p c = true) : T.dropWhile p = [] := by
  induction T with
  | nil => simp
  | cons c cs ih =>
    simp only [List.dropWhile]
    rw [h c (List.mem_cons_self _ _)]
    exact ih (fun x hx => h x (List.mem_cons_of_mem _ hx))

theorem tryDefault_length {cs : List Char} {n d rest : List Char}
    (h : tryDefault cs = some (n, d, rest)) : rest.length < cs.length := by
  unfold tryDefault at h
  split at h
  · rename_i c1 c2 r
    split at h
    · split at h
      · exact absurd h (by simp)
      · split at h
        · rename_i r2 heq
          split at h
          · exact absurd h (by simp)
          · split at h
            · rename_i r4 heq3
              injection h with h1
              injection h1 with h1 h2
              injection h2 with h2 h3
              subst h3
              have hr1 : (r.dropWhile fun c => !(c == ':' || c == '}')).length ≤ r.length :=
                length_dropWhile_le _ _
              rw [heq] at hr1
              have hr3 : (r2.dropWhile fun c => !(c == '}')).length ≤ r2.length :=
                length_dropWhile_le _ _
              rw [heq3] at hr3
              simp only [List.length_cons] at hr1 hr3
              simp only [List.length_cons]
              omega
            · exact absurd h (by simp)
        · exact absurd h (by simp)
    · exact absurd h (by simp)
  · exact absurd h (by simp)

theorem tryDefault_none_of_head {c : Char} (cs : List Char) (h : c ≠ '$') :
    tryDefault (c :: cs) = none := by
  cases cs with
  | nil => simp [tryDefault]
  | cons c2 r => simp [tryDefault, h]

theorem expandDefaultsGo_id (vars : VarMap) (cs : List Char)
    (h : hasDefaultPattern cs = false) :
    ∀ fuel, expandDefaultsGo vars fuel cs = cs := by
  induction cs with
  | nil => intro fuel; cases fuel <;> simp [expandDefaultsGo]
  | cons c cs ih =>
    intro fuel
    simp only [hasDefaultPattern, Bool.or_eq_false_iff] at h
    obtain ⟨h1, h2⟩ := h
    cases fuel with
    | zero => rfl
    | succ fuel =>
      have hnone : tryDefault (c :: cs) = none := by
        cases htd : tryDefault (c :: cs) with
        | none => rfl
        | some x => rw [htd] at h1; exact absurd h1 (by simp)
      simp only [expandDefaultsGo, hnone]
      rw [ih h2 fuel]

theorem expandDefaultValues_id (vars : VarMap) (cs : List Char)
    (h : hasDefaultPattern cs = false) : expandDefaultValues vars cs = cs :=
  expandDefaultsGo_id vars cs h cs.length

theorem replaceAllGo_id_of_no_dollar (ps v : List Char) (cs : List Char)
    (h : '$' ∉ cs) : ∀ fuel, replaceAllGo '$' ps v fuel cs = cs := by
  induction cs with
  | nil => intro fuel; cases fuel <;> simp [replaceAllGo]
  | cons c cs ih =>
    intro fuel
    have hc : c ≠ '$' := by
      intro hc; exact h (by rw [hc]; exact List.mem_cons_self _ _)
    cases fuel with
    | zero => rfl
    | succ fuel =>
      have hpre : isPre ('$' :: ps) (c :: cs) = false := by
        simp only [isPre, Bool.and_eq_false_iff]
        left
        simp only [beq_eq_false_iff_ne, ne_eq]
        intro hcc; exact hc hcc.symm
      simp only [replaceAllGo, hpre, Bool.false_eq_true, if_false]
      rw [ih (fun hm => h (List.mem_cons_of_mem _ hm)) fuel]

theorem subDollarTGo_id_of_no_dollar (name : List Char) (chunks : List TChunk)
    (cs : List Char) (h : '$' ∉ cs) :
    ∀ fuel, subDollarTGo name chunks fuel cs = cs := by
  induction cs with
  | nil => intro fuel; cases fuel <;> simp [subDollarTGo]
  | cons c cs ih =>
    intro fuel
    have hc : c ≠ '$' := by
      intro hc; exact h (by rw [hc]; exact List.mem_cons_self _ _)
    cases fuel with
    | zero => rfl
    | succ fuel =>
      have hpre : isPre ('$' :: name) (c :: cs) = false := by
        simp only [isPre, Bool.and_eq_false_iff]
        left
        simp only [beq_eq_false_iff_ne, ne_eq]
        intro hcc; exact hc hcc.symm
      simp only [subDollarTGo, hpre, Bool.false_and, Bool.false_eq_true, if_false]
      rw [ih (fun hm => h (List.mem_cons_of_mem _ hm)) fuel]

theorem subDollarT_id_of_no_dollar (name : List Char) (chunks : List TChunk)
    (cs : List Char) (h : '$' ∉ cs) : subDollarT name chunks cs = cs :=
  subDollarTGo_id_of_no_dollar name chunks cs h cs.length

theorem replaceAll_id_of_no_dollar (ps v cs : List Char) (h : '$' ∉ cs) :
    replaceAll '$' ps v cs = cs :=
  replaceAllGo_id_of_no_dollar ps v cs h cs.length

theorem reSub_ok_of_no_dollar (name repl cs : List Char) (h : '$' ∉ cs)
    (hvalid : validReplTemplate repl = true) : reSub name repl cs = .ok cs := by
  unfold reSub
  unfold validReplTemplate at hvalid
  split
  · rename_i hbs
    rw [if_pos hbs] at hvalid
    cases hp : parseTemplate 0 repl with
    | error e => rw [hp] at hvalid; simp at hvalid
    | ok chunks => exact congrArg Except.ok (subDollarT_id_of_no_dollar name chunks cs h)
  · rw [subDollarT_id_of_no_dollar name _ cs h]

theorem reSub_ok_eq_of_no_dollar (name repl cs r : List Char) (h : '$' ∉ cs)
    (hr : reSub name repl cs = .ok r) : r = cs := by
  unfold reSub at hr
  split at hr
  · split at hr
    · exact absurd hr (by simp)
    · rename_i chunks hp
      injection hr with hr
      rw [← hr]
      exact subDollarT_id_of_no_dollar name chunks cs h
  · injection hr with hr
    rw [← hr]
    exact subDollarT_id_of_no_dollar name _ cs h

theorem expandVarStep_id_of_no_dollar (cs : List Char) (nv : List Char × List Char)
    (h : '$' ∉ cs) : expandVarStep cs nv = cs := by
  unfold expandVarStep
  rw [replaceAll_id_of_no_dollar _ _ cs h]
  cases hr : reSub nv.1 nv.2 cs with
  | ok r => exact reSub_ok_eq_of_no_dollar nv.1 nv.2 cs r h hr
  | error e => rfl

theorem expandDefaultsGo_id_of_no_dollar (vars : VarMap) (cs : List Char)
    (h : '$' ∉ cs) : ∀ fuel, expandDefaultsGo vars fuel cs = cs := by
  induction cs with
  | nil => intro fuel; cases fuel <;> simp [expandDefaultsGo]
  | cons c cs ih =>
    intro fuel
    have hc : c ≠ '$' := by
      intro hc; exact h (by rw [hc]; exact List.mem_cons_self _ _)
    cases fuel with
    | zero => rfl
    | succ fuel =>
      simp only [expandDefaultsGo, tryDefault_none_of_head cs hc]
      rw [ih (fun hm => h (List.mem_cons_of_mem _ hm)) fuel]

theorem foldl_expandVarStep_id (vars : VarMap) (cs : List Char) (h : '$' ∉ cs) :
    vars.foldl expandVarStep cs = cs := by
  induction vars with
  | nil => simp
  | cons nv rest ih =>
    simp only [List.foldl_cons]
    rw [expandVarStep_id_of_no_dollar cs nv h]
    exact ih

theorem expandPathVariables_id_of_no_dollar (cs : List Char) (vars : VarMap)
    (h : '$' ∉ cs) : expandPathVariables cs vars = cs := by
  unfold expandPathVariables expandDefaultValues
  cases vars with
  | nil => simp [expandDefaultsGo_id_of_no_dollar _ _ h]
  | cons nv rest =>
    simp only []
    rw [expandDefaultsGo_id_of_no_dollar _ _ h]
    exact foldl_expandVarStep_id _ _ h

theorem expandDefaultValues_id_of_no_dollar (vars : VarMap) (cs : List Char)
    (h : '$' ∉ cs) : expandDefaultValues vars cs = cs :=
  expandDefaultsGo_id_of_no_dollar vars cs h cs.length

/-! The `re.sub` template layer: a backslash-free replacement is inserted
literally; an invalid template makes `re.sub` raise before matching. -/

theorem expandTemplate_lit (v m : List Char) :
    expandTemplate (v.map TChunk.lit) m = v := by
  induction v with
  | nil => rfl
  | cons c cs ih =>
    simp only [List.map_cons, expandTemplate, List.flatMap_cons] at ih ⊢
    rw [ih]
    rfl

theorem reSub_error_of_invalid (name repl cs : List Char)
    (h : validReplTemplate repl = false) : ∃ e, reSub name repl cs = .error e := by
  unfold validReplTemplate at h
  unfold reSub
  by_cases hbs : repl.contains '\\' = true
  · rw [if_pos hbs] at h ⊢
    cases hp : parseTemplate 0 repl with
    | error e => exact ⟨e, rfl⟩
    | ok chunks => rw [hp] at h; simp at h
  · rw [if_neg hbs] at h
    simp at h

theorem reSub_ok_of_valid (name repl cs : List Char)
    (h : validReplTemplate repl = true) : ∃ r, reSub name repl cs = .ok r := by
  unfold validReplTemplate at h
  unfold reSub
  by_cases hbs : repl.contains '\\' = true
  · rw [if_pos hbs] at h ⊢
    cases hp : parseTemplate 0 repl with
    | error e => rw [hp] at h; simp at h
    | ok chunks => exact ⟨subDollarT name chunks cs, rfl⟩
  · rw [if_neg hbs]
    exact ⟨subDollarT name (repl.map TChunk.lit) cs, rfl⟩

theorem foldVarsE_id_of_no_dollar (vars : VarMap) (cs : List Char) (h : '$' ∉ cs) :
    templatesOk vars = true → foldVarsE vars cs = .ok cs := by
  induction vars with
  | nil => intro _; rfl
  | cons nv rest ih =>
    intro hok
    simp only [templatesOk, List.all_cons, Bool.and_eq_true] at hok
    unfold foldVarsE
    rw [replaceAll_id_of_no_dollar _ _ cs h, reSub_ok_of_no_dollar nv.1 nv.2 cs h hok.1]
    exact ih hok.2

theorem foldVarsE_error_of_bad (vars : VarMap) :
    templatesOk vars = false → ∀ cs : List Char, ∃ e, foldVarsE vars cs = .error e := by
  induction vars with
  | nil => intro hbad; exact absurd hbad (by decide)
  | cons nv rest ih =>
    intro hbad cs
    by_cases hv : validReplTemplate nv.2 = true
    · have hrest : templatesOk rest = false := by
        simp only [templatesOk, List.all_cons, hv, Bool.true_and] at hbad
        exact hbad
      obtain ⟨r, hr⟩ :=
        reSub_ok_of_valid nv.1 nv.2 (replaceAll '$' ('{' :: (nv.1 ++ ['}'])) nv.2 cs) hv
      unfold foldVarsE
      rw [hr]
      exact ih hrest r
    · rw [Bool.not_eq_true] at hv
      obtain ⟨e, he⟩ :=
        reSub_error_of_invalid nv.1 nv.2 (replaceAll '$' ('{' :: (nv.1 ++ ['}'])) nv.2 cs) hv
      unfold foldVarsE
      rw [he]
      exact ⟨e, rfl⟩

theorem foldVarsE_eq_foldl (vars : VarMap) :
    ∀ cs : List Char, templatesOk vars = true →
      foldVarsE vars cs = .ok (vars.foldl expandVarStep cs) := by
  induction vars with
  | nil => intro cs _; rfl
  | cons nv rest ih =>
    intro cs hok
    simp only [templatesOk, List.all_cons, Bool.and_eq_true] at hok
    obtain ⟨r, hr⟩ :=
      reSub_ok_of_valid nv.1 nv.2 (replaceAll '$' ('{' :: (nv.1 ++ ['}'])) nv.2 cs) hok.1
    have hstep : expandVarStep cs nv = r := by
      unfold expandVarStep
      rw [hr]
    unfold foldVarsE
    rw [hr, List.foldl_cons, hstep]
    exact ih r hok.2

theorem expandPathVariablesE_agrees (s : List Char) (vars : VarMap)
    (hok : templatesOk vars = true) :
    expandPathVariablesE s vars = .ok (expandPathVariables s vars) := by
  unfold expandPathVariablesE expandPathVariables
  cases vars with
  | nil => rfl
  | cons nv rest => exact foldVarsE_eq_foldl (nv :: rest) (expandDefaultValues (nv :: rest) s) hok

/-- On `$VAR1` the word-boundary lookahead blocks the only candidate match, so
the scan returns the text unchanged whatever the compiled template is. -/

theorem subDollarT_VAR1 (chunks : List TChunk) :
    subDollarT ['V', 'A', 'R'] chunks ['$', 'V', 'A', 'R', '1'] =
      ['$', 'V', 'A', 'R', '1'] := by
  simp [subDollarT, subDollarTGo, isPre, boundaryOk, isIdentChar]

theorem reSub_VAR1 (v x : List Char)
    (h : reSub ['V', 'A', 'R'] v ['$', 'V', 'A', 'R', '1'] = .ok x) :
    x = ['$', 'V', 'A', 'R', '1'] := by
  unfold reSub at h
  split at h
  · split at h
    · exact absurd h (by simp)
    · rename_i chunks hp
      injection h with h
      rw [← h]
      exact subDollarT_VAR1 chunks
  · injection h with h
    rw [← h]
    exact subDollarT_VAR1 _

/-! Claims about `replace_lines` (C2, C10). -/

/-- Claim C2: `replace_lines(exp_start, exp_end, replacement)` fails with a
descriptive `ValueError` (not a panic) exactly when some original line index
in the inclusive range from `line_map[exp_start]` to `line_map[exp_end]`
produced more than one expanded line; otherwise it replaces that contiguous
original-line range with the lines of the replacement (split on newline) and
rebuilds `expanded_lines` and `line_map` from the mutated `original_lines`. -/

theorem claim_C2 (c : ConfigContent) (s e : Nat) (r : List Char) (os oe : Nat)
    (hs : c.lineMap.get? s = some os) (he : c.lineMap.get? e = some oe)
    (hle : os ≤ oe) :
    ((∃ n, os ≤ n ∧ n ≤ oe ∧ 1 < c.lineMap.count n) ↔
      ∃ msg, (replaceLines c s e r).1 = some (PyErr.valueError msg)) ∧
    ((¬ ∃ n, os ≤ n ∧ n ≤ oe ∧ 1 < c.lineMap.count n) →
      replaceLines c s e r =
        (none, mkFromLines c.pathVars
          (c.originalLines.take os ++ splitNL r ++ c.originalLines.drop (oe + 1)))) := by
  simp only [replaceLines, hs, he]
  cases hfind : (List.range' os (oe + 1 - os)).find?
      (fun n => decide (1 < c.lineMap.count n)) with
  | some n =>
    have hp : 1 < c.lineMap.count n := by
      have := List.find?_some hfind
      simpa using this
    have hmem : os ≤ n ∧ n < os + (oe + 1 - os) := by
      have := List.mem_of_find?_eq_some hfind
      simpa [List.mem_range'_1] using this
    constructor
    · constructor
      · intro _
        exact ⟨replaceErrMsg n (c.lineMap.count n), rfl⟩
      · intro _
        exact ⟨n, hmem.1, by omega, hp⟩
    · intro hno
      exact absurd ⟨n, hmem.1, by omega, hp⟩ hno
  | none =>
    have hall := List.find?_eq_none.mp hfind
    constructor
    · constructor
      · rintro ⟨n, h1, h2, h3⟩
        have := hall n (List.mem_range'_1.mpr ⟨h1, by omega⟩)
        simp only [decide_eq_true_eq] at this
        exact absurd h3 this
      · rintro ⟨msg, hmsg⟩
        exact absurd hmsg (by simp)
    · intro _
      have hmax : max os (oe + 1) = oe + 1 := by omega
      rw [hmax]

/-- Witness for C2 at a concrete input: two plain lines, empty variable map,
no multi-line expansion in range, so the call succeeds and replaces line 0. -/

theorem claim_C2_witness :
    (mkConfigContent "a\nb".data []).lineMap.get? 0 = some 0 ∧
    (mkConfigContent "a\nb".data []).lineMap.get? 1 = some 1 ∧
    ((∃ n, 0 ≤ n ∧ n ≤ 1 ∧ 1 < (mkConfigContent "a\nb".data []).lineMap.count n) ↔
      ∃ msg, (replaceLines (mkConfigContent "a\nb".data []) 0 1 "z".data).1 =
        some (PyErr.valueError msg)) ∧
    ((¬ ∃ n, 0 ≤ n ∧ n ≤ 1 ∧ 1 < (mkConfigContent "a\nb".data []).lineMap.count n) →
      replaceLines (mkConfigContent "a\nb".data []) 0 1 "z".data =
        (none, mkFromLines (mkConfigContent "a\nb".data []).pathVars
          ((mkConfigContent "a\nb".data []).originalLines.take 0 ++ splitNL "z".data ++
            (mkConfigContent "a\nb".data []).originalLines.drop 2))) :=
  ⟨by decide, by decide,
    claim_C2 (mkConfigContent "a\nb".data []) 0 1 "z".data 0 1
      (by decide) (by decide) (by decide)⟩

/-- Claim C10: `replace_lines` is atomic on error: whenever it raises the
multi-line-expansion `ValueError`, the `ConfigContent` state is unchanged,
because all validation happens before any mutation. -/

theorem claim_C10 (c : ConfigContent) (s e : Nat) (r : List Char) (msg : List Char)
    (h : (replaceLines c s e r).1 = some (PyErr.valueError msg)) :
    (replaceLines c s e r).2 = c := by
  unfold replaceLines at h ⊢
  cases hg1 : c.lineMap.get? s with
  | none => cases hg2 : c.lineMap.get? e <;> simp_all
  | some os =>
    cases hg2 : c.lineMap.get? e with
    | none => simp_all
    | some oe =>
      simp only [hg1, hg2] at h ⊢
      cases hfind : (List.range' os (oe + 1 - os)).find?
          (fun n => decide (1 < c.lineMap.count n)) with
      | some n => simp only [hfind]
      | none =>
        simp only [hfind] at h
        exact absurd h (by simp)

/-- Witness for C10 at a concrete input: line 0 of `x${V}y` expands to two
lines, so replacing it raises the `ValueError` and the state is unchanged. -/

theorem claim_C10_witness :
    (replaceLines (mkConfigContent "x$\x7bV\x7dy".data [("V".data, "a\nb".data)]) 0 0
        "z".data).1 = some (PyErr.valueError (replaceErrMsg 0 2)) ∧
    (replaceLines (mkConfigContent "x$\x7bV\x7dy".data [("V".data, "a\nb".data)]) 0 0
        "z".data).2 = mkConfigContent "x$\x7bV\x7dy".data [("V".data, "a\nb".data)] :=
  ⟨by decide,
    claim_C10 (mkConfigContent "x$\x7bV\x7dy".data [("V".data, "a\nb".data)]) 0 0
      "z".data (replaceErrMsg 0 2) (by decide)⟩

/-! Claims about the variable expander (C4, C8). -/

/-- Counterexample for C4 as stated: the text `$VAR` contains no `${...}`
token, yet `expand_path_variables` substitutes the bare `$VAR` reference, so
the expander is not the identity on `${...}`-free text. -/

theorem claim_C4_counterexample :
    containsSub "$\x7b".data "$VAR".data = false ∧
    expandPathVariablesE "$VAR".data [("VAR".data, "x".data)] = .ok "x".data ∧
    "x".data ≠ "$VAR".data :=
  ⟨by decide, by rfl, by decide⟩

/-- Claim C4 (amended): for every variable map whose values all compile as
`re.sub` replacement templates (in particular any map whose values contain no
backslash) and every text with no `$` character at all (so neither `${...}`
nor bare `$NAME` tokens), `expand_path_variables` returns the text unchanged;
and a map containing a value that is an invalid replacement template makes
`expand_path_variables` raise `re.error` regardless of the text, because
`re.sub` compiles the template before matching. -/

theorem claim_C4_amended (t : List Char) (vars : VarMap) :
    ('$' ∉ t → templatesOk vars = true → expandPathVariablesE t vars = .ok t) ∧
    (templatesOk vars = false → ∃ e, expandPathVariablesE t vars = .error e) := by
  constructor
  · intro h hok
    unfold expandPathVariablesE
    rw [expandDefaultValues_id_of_no_dollar vars t h]
    cases vars with
    | nil => rfl
    | cons nv rest => exact foldVarsE_id_of_no_dollar (nv :: rest) t h hok
  · intro hbad
    unfold expandPathVariablesE
    cases vars with
    | nil => exact absurd hbad (by decide)
    | cons nv rest =>
      exact foldVarsE_error_of_bad (nv :: rest) hbad (expandDefaultValues (nv :: rest) t)

/-- Witness for the amended C4: identity on a `$`-free path with a valid map,
and the `re.error` raised by the invalid replacement template `\d` even though
the text contains no variable reference at all. -/

theorem claim_C4_amended_witness :
    ('$' ∉ "abc/file.sh".data ∧ templatesOk [("VAR".data, "x".data)] = true ∧
      expandPathVariablesE "abc/file.sh".data [("VAR".data, "x".data)] =
        .ok "abc/file.sh".data) ∧
    (templatesOk [("A".data, "\\d".data)] = false ∧
      ∃ e, expandPathVariablesE "abc".data [("A".data, "\\d".data)] = .error e) :=
  ⟨⟨by decide, by decide,
      (claim_C4_amended "abc/file.sh".data [("VAR".data, "x".data)]).1
        (by decide) (by decide)⟩,
    ⟨by decide, (claim_C4_amended "abc".data [("A".data, "\\d".data)]).2 (by decide)⟩⟩

theorem splitNL_singleton (l : List Char) (h : '\n' ∉ l) : splitNL l = [l] := by
  induction l with
  | nil => rfl
  | cons c cs ih =>
    have hc : ¬ c = '\n' := fun hc => h (by rw [hc]; exact List.mem_cons_self _ _)
    simp only [splitNL, hc, if_false]
    rw [ih (fun hm => h (List.mem_cons_of_mem _ hm))]

theorem buildExpanded_fst_id (lines : List (List Char)) (i : Nat)
    (h : ∀ l ∈ lines, hasDefaultPattern l = false ∧ '\n' ∉ l) :
    (buildExpanded [] lines i).1 = lines := by
  induction lines generalizing i with
  | nil => rfl
  | cons l ls ih =>
    obtain ⟨h1, h2⟩ := h l (List.mem_cons_self _ _)
    have hexp : expandPathVariables l [] = l := by
      unfold expandPathVariables
      exact expandDefaultValues_id [] l h1
    simp only [buildExpanded, hexp, splitNL_singleton l h2]
    rw [ih _ (fun x hx => h x (List.mem_cons_of_mem _ hx))]
    rfl

/-- Counterexample for C5 as stated: with the empty variable map, the
default-value pass still rewrites `${V:-d}` to `d`, so `get_expanded()` is
not always equal to the input text. -/

theorem claim_C5_counterexample :
    getExpanded (mkConfigContent "$\x7bV:-d\x7d".data []) = "d".data ∧
    getExpanded (mkConfigContent "$\x7bV:-d\x7d".data []) ≠ "$\x7bV:-d\x7d".data := by
  refine ⟨by decide, by decide⟩

/-- Claim C5 (amended): for every text, `ConfigContent(text, {}).get_original()`
equals the text, and `get_expanded()` also equals the text provided no line of
the text contains a `${NAME:-default}` token (the default-value pass runs even
with an empty map, so such tokens are rewritten). -/

theorem claim_C5_amended (t : List Char)
    (h : ∀ l ∈ splitNL t, hasDefaultPattern l = false) :
    getOriginal (mkConfigContent t []) = t ∧ getExpanded (mkConfigContent t []) = t := by
  constructor
  · exact joinNL_splitNL t
  · show joinNL (buildExpanded [] (splitNL t) 0).1 = t
    rw [buildExpanded_fst_id _ _
      (fun l hl => ⟨h l hl, not_newline_mem_splitNL t l hl⟩)]
    exact joinNL_splitNL t

/-- Witness for the amended C5 at a concrete two-line input. -/

theorem claim_C5_amended_witness :
    (∀ l ∈ splitNL "key = $VAR\nother = 1".data, hasDefaultPattern l = false) ∧
    getOriginal (mkConfigContent "key = $VAR\nother = 1".data []) =
      "key = $VAR\nother = 1".data ∧
    getExpanded (mkConfigContent "key = $VAR\nother = 1".data []) =
      "key = $VAR\nother = 1".data :=
  ⟨by decide, claim_C5_amended _ (by decide)⟩

/-- Claim C8: in the second expansion pass a bare `$NAME` reference is
substituted only when followed by a non-identifier character (not in
`[A-Za-z0-9_]`) or the end of the string.  In particular, for a map binding
`VAR`, expanding `$VAR1` performs no substitution at all — whatever the bound
value, whenever `re.sub` returns a result it is the unchanged text; a
backslash-free value bound to `VAR` is inserted for `$VAR` followed by a
non-identifier character or the end of string (values with a backslash are
template-processed by `re.sub` before insertion). -/

theorem claim_C8 :
    (∀ v r : List Char,
      expandPathVariablesE "$VAR1".data [("VAR".data, v)] = .ok r →
        r = "$VAR1".data) ∧
    (∀ v : List Char, ∀ c : Char, v.contains '\\' = false → isIdentChar c = false →
      expandPathVariablesE ("$VAR".data ++ [c]) [("VAR".data, v)] = .ok (v ++ [c])) ∧
    (∀ v : List Char, ∀ c : Char, v.contains '\\' = false → isIdentChar c = true →
      expandPathVariablesE ("$VAR".data ++ [c]) [("VAR".data, v)] =
        .ok ("$VAR".data ++ [c])) ∧
    (∀ v : List Char, v.contains '\\' = false →
      expandPathVariablesE "$VAR".data [("VAR".data, v)] = .ok v) := by
  have hdata1 : "$VAR1".data = ['$', 'V', 'A', 'R', '1'] := rfl
  have hdata2 : "$VAR".data = ['$', 'V', 'A', 'R'] := rfl
  have hdata3 : "VAR".data = ['V', 'A', 'R'] := rfl
  refine ⟨?_, ?_, ?_, ?_⟩
  · intro v r h
    rw [hdata1, hdata3] at h
    simp [expandPathVariablesE, expandDefaultValues, expandDefaultsGo, tryDefault,
      foldVarsE, replaceAll, replaceAllGo, isPre] at h
    cases hr : reSub ['V', 'A', 'R'] v ['$', 'V', 'A', 'R', '1'] with
    | ok x =>
      rw [hr] at h
      simp at h
      rw [hdata1, ← h]
      exact reSub_VAR1 v x hr
    | error e => rw [hr] at h; simp at h
  · intro v c hv hc
    have hv2 : '\\' ∉ v := by simpa using hv
    rw [hdata2, hdata3]
    simp [expandPathVariablesE, expandDefaultValues, expandDefaultsGo, tryDefault,
      foldVarsE, reSub, hv2, subDollarT, subDollarTGo, expandTemplate_lit,
      replaceAll, replaceAllGo, isPre, boundaryOk, hc]
  · intro v c hv hc
    have hv2 : '\\' ∉ v := by simpa using hv
    rw [hdata2, hdata3]
    simp [expandPathVariablesE, expandDefaultValues, expandDefaultsGo, tryDefault,
      foldVarsE, reSub, hv2, subDollarT, subDollarTGo, expandTemplate_lit,
      replaceAll, replaceAllGo, isPre, boundaryOk, hc]
  · intro v hv
    have hv2 : '\\' ∉ v := by simpa using hv
    rw [hdata2, hdata3]
    simp [expandPathVariablesE, expandDefaultValues, expandDefaultsGo, tryDefault,
      foldVarsE, reSub, hv2, subDollarT, subDollarTGo, expandTemplate_lit,
      replaceAll, replaceAllGo, isPre, boundaryOk]

/-- Witness for C8 at concrete inputs: no substitution on `$VAR1` even for a
backslash-carrying value whose template compiles, and the boundary cases for a
backslash-free value. -/

theorem claim_C8_witness :
    expandPathVariablesE "$VAR1".data [("VAR".data, "a\\nb".data)] =
      .ok "$VAR1".data ∧
    "$VAR1".data = "$VAR1".data ∧
    "scripts".data.contains '\\' = false ∧
    isIdentChar '/' = false ∧
    expandPathVariablesE ("$VAR".data ++ ['/']) [("VAR".data, "scripts".data)] =
      .ok ("scripts".data ++ ['/']) ∧
    isIdentChar '1' = true ∧
    expandPathVariablesE ("$VAR".data ++ ['1']) [("VAR".data, "scripts".data)] =
      .ok ("$VAR".data ++ ['1']) :=
  ⟨by rfl, claim_C8.1 "a\\nb".data "$VAR1".data (by rfl), by decide, by decide,
    claim_C8.2.1 "scripts".data '/' (by decide) (by decide), by decide,
    claim_C8.2.2.1 "scripts".data '1' (by decide) (by decide)⟩

/-! Structural lemmas about the locator. -/

theorem length_takeWhile_le (p : Char → Bool) (l : List Char) :
    (l.takeWhile p).length ≤ l.length := by
  induction l with
  | nil => simp
  | cons c cs ih =>
    simp only [List.takeWhile]
    split
    · simpa using Nat.succ_le_succ ih
    · simp

theorem mkMatch_startPos (content : List Char) (s e : Nat) (pv : PyVal) :
    (mkMatch content s e pv).startPos = s := rfl

theorem mkMatch_endPos (content : List Char) (s e : Nat) (pv : PyVal) :
    (mkMatch content s e pv).endPos = e := rfl

theorem backtrackWs_le {val t3 : List Char} :
    ∀ {m t : Nat}, backtrackWs val t3 m = some t → t ≤ m := by
  intro m
  induction m with
  | zero =>
    intro t h
    simp only [backtrackWs] at h
    split at h
    · injection h with h; omega
    · exact absurd h (by simp)
  | succ m ih =>
    intro t h
    simp only [backtrackWs] at h
    split at h
    · injection h with h; omega
    · exact Nat.le_trans (ih h) (Nat.le_succ m)

theorem backtrackWs_pre {val t3 : List Char} :
    ∀ {m t : Nat}, backtrackWs val t3 m = some t → isPre val (t3.drop t) = true := by
  intro m
  induction m with
  | zero =>
    intro t h
    simp only [backtrackWs] at h
    split at h
    · rename_i hc
      injection h with h
      subst h
      simpa using hc
    · exact absurd h (by simp)
  | succ m ih =>
    intro t h
    simp only [backtrackWs] at h
    split at h
    · rename_i hc
      injection h with h
      subst h
      exact hc
    · exact ih h

theorem matchAt_bounds {cs : List Char} {i : Nat} {key val : List Char} {e : Nat}
    (h : matchAt cs i key val = some e) : i < e ∧ e ≤ cs.length := by
  unfold matchAt at h
  split at h
  case isTrue hpre =>
    split at h
    case h_1 t3 heq =>
      split at h
      case h_1 t hbt =>
        injection h with h
        subst h
        have hklen : key.length ≤ (cs.drop i).length :=
          ((isPre_iff key (cs.drop i)).mp hpre).length_le
        have hw1le : (((cs.drop i).drop key.length).takeWhile isPyWs).length ≤
            ((cs.drop i).drop key.length).length := length_takeWhile_le _ _
        have hdropB := congrArg List.length heq
        rw [List.length_drop] at hdropB
        simp only [List.length_cons] at hdropB
        have ht := backtrackWs_le hbt
        have htw : (t3.takeWhile isPyWs).length ≤ t3.length := length_takeWhile_le _ _
        have hvlen : val.length ≤ (t3.drop t).length :=
          ((isPre_iff val (t3.drop t)).mp (backtrackWs_pre hbt)).length_le
        rw [List.length_drop] at hvlen
        have hBlen : ((cs.drop i).drop key.length).length = (cs.drop i).length - key.length :=
          List.length_drop _ _
        have hAlen : (cs.drop i).length = cs.length - i := List.length_drop _ _
        constructor
        · omega
        · omega
      case h_2 => exact absurd h (by simp)
    case h_2 => exact absurd h (by simp)
  case isFalse => exact absurd h (by simp)

theorem finditerGo_mem {cs key val : List Char} :
    ∀ (fuel i s e : Nat), (s, e) ∈ finditerGo cs key val fuel i →
      matchAt cs s key val = some e ∧ i ≤ s := by
  intro fuel
  induction fuel with
  | zero => intro i s e h; simp [finditerGo] at h
  | succ fuel ih =>
    intro i s e h
    simp only [finditerGo] at h
    split at h
    · simp at h
    · split at h
      · rename_i e2 hmt
        rcases List.mem_cons.mp h with h1 | h1
        · obtain ⟨rfl, rfl⟩ := Prod.mk.injEq .. ▸ (by simpa using h1 : s = i ∧ e = e2)
          exact ⟨hmt, Nat.le_refl i⟩
        · obtain ⟨hm2, hle⟩ := ih e2 s e h1
          have := (matchAt_bounds hmt).1
          exact ⟨hm2, by omega⟩
      · obtain ⟨hm2, hle⟩ := ih (i + 1) s e h
        exact ⟨hm2, by omega⟩

theorem finditerGo_pairwise (cs key val : List Char) :
    ∀ (fuel i : Nat),
      List.Pairwise (fun a b : Nat × Nat => a.1 < b.1) (finditerGo cs key val fuel i) := by
  intro fuel
  induction fuel with
  | zero => intro i; simp [finditerGo]
  | succ fuel ih =>
    intro i
    simp only [finditerGo]
    split
    · simp
    · split
      · rename_i e hmt
        refine List.Pairwise.cons ?_ (ih e)
        intro b hb
        obtain ⟨s2, e2⟩ := b
        obtain ⟨_, hle⟩ := finditerGo_mem fuel e s2 e2 hb
        have := (matchAt_bounds hmt).1
        simp only []
        omega
      · exact ih (i + 1)

theorem processHits_mem {content key : List Char} {pv : PyVal} :
    ∀ (hs : List (Nat × Nat)) (seen : List Nat) (m : TomlMatch),
      m ∈ (processHits content key pv hs seen).1 →
      ∃ s e, (s, e) ∈ hs ∧ validTomlMatch content s e key = true ∧
        m = mkMatch content s e pv := by
  intro hs
  induction hs with
  | nil => intro seen m h; simp [processHits] at h
  | cons he hs ih =>
    intro seen m h
    obtain ⟨s, e⟩ := he
    simp only [processHits] at h
    split at h
    · obtain ⟨s2, e2, h1, h2, h3⟩ := ih _ _ h
      exact ⟨s2, e2, List.mem_cons_of_mem _ h1, h2, h3⟩
    · split at h
      · rename_i hv
        rcases List.mem_cons.mp h with h1 | h1
        · exact ⟨s, e, List.mem_cons_self _ _, hv, h1⟩
        · obtain ⟨s2, e2, h2, h3, h4⟩ := ih _ _ h1
          exact ⟨s2, e2, List.mem_cons_of_mem _ h2, h3, h4⟩
      · obtain ⟨s2, e2, h1, h2, h3⟩ := ih _ _ h
        exact ⟨s2, e2, List.mem_cons_of_mem _ h1, h2, h3⟩

theorem goVals_mem {content key : List Char} :
    ∀ (items : List TomlItem) (seen : List Nat) (m : TomlMatch),
      m ∈ goVals content key items seen →
      ∃ it, it ∈ items ∧ ∃ s e, (s, e) ∈ finditer content key it.raw ∧
        validTomlMatch content s e key = true ∧ m = mkMatch content s e (unwrapItem it) := by
  intro items
  induction items with
  | nil => intro seen m h; simp [goVals] at h
  | cons it rest ih =>
    intro seen m h
    simp only [goVals] at h
    rcases List.mem_append.mp h with h1 | h1
    · obtain ⟨s, e, h2, h3, h4⟩ := processHits_mem _ _ _ h1
      exact ⟨it, List.mem_cons_self _ _, s, e, h2, h3, h4⟩
    · obtain ⟨it2, h2, rest2⟩ := ih _ _ h1
      exact ⟨it2, List.mem_cons_of_mem _ h2, rest2⟩

theorem processHits_starts_sublist (content key : List Char) (pv : PyVal) :
    ∀ (hs : List (Nat × Nat)) (seen : List Nat),
      List.Sublist ((processHits content key pv hs seen).1.map TomlMatch.startPos)
        (hs.map Prod.fst) := by
  intro hs
  induction hs with
  | nil => intro seen; simp [processHits]
  | cons he hs ih =>
    intro seen
    obtain ⟨s, e⟩ := he
    simp only [processHits, List.map_cons]
    split
    · exact (ih seen).cons s
    · split
      · simp only [List.map_cons, mkMatch_startPos]
        exact (ih (s :: seen)).cons₂ s
      · exact (ih seen).cons s

theorem extract_split (cs : List Char) (a b c : Nat) (hab : a ≤ b) (hbc : b ≤ c)
    (hblen : b ≤ cs.length) : extract cs a c = extract cs a b ++ extract cs b c := by
  unfold extract
  have h2 : cs.take c = cs.take b ++ (cs.take c).drop b := by
    conv_lhs => rw [← List.take_append_drop b (cs.take c)]
    rw [List.take_take, min_eq_left hbc]
  conv_lhs => rw [h2]
  rw [List.drop_append_eq_append_drop]
  have h3 : (cs.take b).length = b := by
    rw [List.length_take]; omega
  rw [h3]
  have h4 : a - b = 0 := by omega
  rw [h4, List.drop_zero]

theorem parseTomlKeys_comment (W T : List Char)
    (hW : ∀ c ∈ W, isWsNT c = true) (hT : '\n' ∉ T) :
    parseTomlKeys (W ++ '#' :: T) = some [] := by
  unfold parseTomlKeys
  have hlen : (W ++ '#' :: T).length = W.length + T.length + 1 := by
    simp [List.length_append]
    omega
  have hdw : (W ++ '#' :: T).dropWhile isWsNT = '#' :: T := by
    rw [dropWhile_append_of_all isWsNT W ('#' :: T) hW]
    simp [List.dropWhile, isWsNT]
  have hT2 : T.dropWhile (fun c => !(c == '\n')) = [] :=
    dropWhile_eq_nil_of_all _ _ (fun c hc => by
      have hne : c ≠ '\n' := fun hcc => hT (hcc ▸ hc)
      simp [hne])
  rw [hlen]
  rw [parseTomlGo, hdw]
  simp only [hT2]
  rw [parseTomlGo]
  simp

/-! Claims about the locator (C1, C3). -/

/-- Counterexample for C3 as stated: the parsed values of `c3content` are the
serializations of `a.star`, `b.star`, `a.star` in document order, and the
locator groups the results by value, so the returned start positions are
`[8, 60, 34]` — not sorted by start position in the expanded text. -/

theorem claim_C3_counterexample :
    (findValidTomlMatches c3content "script".data c3doc).map TomlMatch.startPos =
      [8, 60, 34] ∧
    ¬ List.Pairwise (· ≤ ·)
      ((findValidTomlMatches c3content "script".data c3doc).map TomlMatch.startPos) := by
  refine ⟨by decide, ?_⟩
  intro h
  have h2 : List.Pairwise (α := Nat) (· ≤ ·) [8, 60, 34] := by
    have he : (findValidTomlMatches c3content "script".data c3doc).map TomlMatch.startPos =
        [8, 60, 34] := by decide
    rw [← he]
    exact h
  simp at h2

/-- Claim C3 (amended): matches arising from a single parsed value occurrence
are in document order (strictly increasing start positions); when the key has
several occurrences the list is grouped by parsed value, not globally sorted. -/

theorem claim_C3_amended (content key : List Char) (doc : TomlDoc)
    (h : (findAllKeysInToml doc key).length ≤ 1) :
    List.Pairwise (· < ·)
      ((findValidTomlMatches content key doc).map TomlMatch.startPos) := by
  unfold findValidTomlMatches
  cases hitems : findAllKeysInToml doc key with
  | nil => simp [goVals]
  | cons it rest =>
    cases rest with
    | nil =>
      have hgo : goVals content key [it] [] =
          (processHits content key (unwrapItem it) (finditer content key it.raw) []).1 := by
        simp [goVals]
      rw [hgo]
      have hsub := processHits_starts_sublist content key (unwrapItem it)
        (finditer content key it.raw) []
      have hpw : List.Pairwise (· < ·) ((finditer content key it.raw).map Prod.fst) :=
        List.pairwise_map.mpr (finditerGo_pairwise content key it.raw _ 0)
      exact hpw.sublist hsub
    | cons it2 rest2 =>
      rw [hitems] at h
      simp at h

/-- Witness for the amended C3 at a concrete single-occurrence input. -/

theorem claim_C3_amended_witness :
    (findAllKeysInToml c1wDoc "script".data).length ≤ 1 ∧
    List.Pairwise (· < ·)
      ((findValidTomlMatches c1wContent "script".data c1wDoc).map TomlMatch.startPos) :=
  ⟨by decide, claim_C3_amended c1wContent "script".data c1wDoc (by decide)⟩

/-- Counterexample for C1 as stated: on `c1content` the locator returns a
match whose start position lies on the commented-out line
`# script = \"\"\"` — the validation slice for that hit spans three physical
lines and re-parses successfully because the multi-line value's continuation
lines themselves bind `script`. -/

theorem claim_C1_counterexample :
    (findValidTomlMatches c1content "script".data c1doc).any
      (fun m => liesOnCommentedLine c1content m.startPos) = true := by
  decide

/-- Claim C1 (amended): no single-line match is ever returned on a
commented-out line: whenever the validated slice (from the start of the hit's
physical line through the hit's end) contains no newline, a hit of the form
`# key = value` is rejected by the re-parse validation. -/

theorem claim_C1_amended (content key : List Char) (doc : TomlDoc) (m : TomlMatch)
    (hm : m ∈ findValidTomlMatches content key doc)
    (hsl : '\n' ∉ extract content (lineStartPos content m.startPos) m.endPos) :
    liesOnCommentedLine content m.startPos = false := by
  obtain ⟨it, hit, s, e, hfind, hvalid, hmk⟩ := goVals_mem _ _ _ hm
  obtain ⟨hmAt, _⟩ := finditerGo_mem _ 0 s e hfind
  have hb := matchAt_bounds hmAt
  have hstart : m.startPos = s := by rw [hmk]; rfl
  have hend : m.endPos = e := by rw [hmk]; rfl
  rw [hstart] at hsl ⊢
  rw [hend] at hsl
  cases hcomm : liesOnCommentedLine content s with
  | false => rfl
  | true =>
    exfalso
    unfold liesOnCommentedLine at hcomm
    cases hdrop : (extract content (lineStartPos content s) s).dropWhile isWsNT with
    | nil => rw [hdrop] at hcomm; simp at hcomm
    | cons c R =>
      rw [hdrop] at hcomm
      have hc : c = '#' := by simpa using hcomm
      subst hc
      have hPsplit : extract content (lineStartPos content s) s =
          (extract content (lineStartPos content s) s).takeWhile isWsNT ++ '#' :: R := by
        conv_lhs => rw [← List.takeWhile_append_dropWhile
          (p := isWsNT) (l := extract content (lineStartPos content s) s)]
        rw [hdrop]
      have hslice : extract content (lineStartPos content s) e =
          extract content (lineStartPos content s) s ++ extract content s e :=
        extract_split content _ s e (Nat.sub_le _ _) (Nat.le_of_lt hb.1)
          (Nat.le_trans (Nat.le_of_lt hb.1) hb.2)
      have hreassoc : extract content (lineStartPos content s) e =
          (extract content (lineStartPos content s) s).takeWhile isWsNT ++
            '#' :: (R ++ extract content s e) := by
        rw [hslice]
        conv_lhs => rw [hPsplit]
        simp
      have hT : '\n' ∉ R ++ extract content s e := by
        intro hmem
        apply hsl
        rw [hreassoc]
        simp only [List.mem_append, List.mem_cons]
        rcases List.mem_append.mp hmem with h1 | h1
        · exact Or.inr (Or.inr (Or.inl h1))
        · exact Or.inr (Or.inr (Or.inr h1))
      have hW : ∀ c2 ∈ (extract content (lineStartPos content s) s).takeWhile isWsNT,
          isWsNT c2 = true := fun c2 hc2 => List.mem_takeWhile_imp hc2
      have hparse : parseTomlKeys (extract content (lineStartPos content s) e) =
          some [] := by
        rw [hreassoc]
        exact parseTomlKeys_comment _ _ hW hT
      unfold validTomlMatch at hvalid
      rw [hparse] at hvalid
      simp at hvalid

/-- Witness for the amended C1: on `c1wContent` the only returned match is the
real binding on line 1, and it does not lie on a commented-out line. -/

theorem claim_C1_amended_witness :
    liesOnCommentedLine c1wContent
      ((findValidTomlMatches c1wContent "script".data c1wDoc).get
        ⟨0, by decide⟩).startPos = false :=
  claim_C1_amended c1wContent "script".data c1wDoc _
    (List.get_mem _ 0 (by decide)) (by decide)

/-! Claims about the inliners (C6, C7, C9). -/

/-- Claim C6: for a fragment `script = "a.star"` where the file `a.star`
contains `load('a.star','x')`, the Starlark inliner replaces the key=value
with exactly `source = '''\nload('a.star','x')'''`. -/

theorem claim_C6 :
    inlineStarlarkScript c6content c6fs [] c6doc = .ok c6expected := by
  rfl

/-- Counterexample for C7 as stated: a `command` match whose first element
does not end in `.sh` but whose second element contains `'''` aborts fatally
instead of being passed through with a warning. -/

theorem claim_C7_counterexample :
    endsWithL ".sh".data "tool.bin".data = false ∧
    processShellScriptMatch cfg0 m0 [] =
      .error (.tripleQuote "Shell script argument".data
        [("script".data, "tool.bin".data), ("argument".data, tqArg)]) := by
  exact ⟨by decide, by rfl⟩

theorem validateShellArgsTQ_none (p : List Char) (args : List PyVal)
    (h : allStrNoTQ args = true) : validateShellArgsTQ p args = none := by
  induction args with
  | nil => rfl
  | cons a rest ih =>
    cases a with
    | pStr s =>
      simp only [allStrNoTQ, Bool.and_eq_true, Bool.not_eq_true'] at h
      simp only [validateShellArgsTQ, h.1, Bool.false_eq_true, if_false]
      exact ih h.2
    | pInt n => simp [allStrNoTQ] at h
    | pBool b => simp [allStrNoTQ] at h
    | pArr xs => simp [allStrNoTQ] at h
    | pDict kvs => simp [allStrNoTQ] at h

/-- Claim C7 (amended): a `command` match whose first array element does not
end in `.sh` and none of whose remaining (string) elements contains `'''` is
passed through unchanged with a warning; the case is non-fatal. -/

theorem claim_C7_amended (cfg : ConfigContent) (m : TomlMatch)
    (fs : List (List Char × List Char)) (p0 : List Char) (args : List PyVal)
    (hv : m.value = .pArr (.pStr p0 :: args))
    (hsh : endsWithL ".sh".data p0 = false)
    (hargs : allStrNoTQ args = true) :
    processShellScriptMatch cfg m fs = .ok (cfg, [warnNotShell p0]) := by
  unfold processShellScriptMatch
  rw [hv]
  simp only [processShellValue, validateShellArgsTQ_none _ _ hargs, hsh,
    Bool.false_eq_true, if_false]

/-- Witness for the amended C7. -/

theorem claim_C7_amended_witness :
    processShellScriptMatch cfg0
      ⟨[], .pArr [.pStr "tool.bin".data, .pStr "x".data], 0, 0, 0, 0, 0⟩ [] =
      .ok (cfg0, [warnNotShell "tool.bin".data]) :=
  claim_C7_amended cfg0 _ [] "tool.bin".data [.pStr "x".data] rfl
    (by decide) (by decide)

theorem validateShellArgsTQ_tq (p : List Char) (args : List PyVal)
    (hstr : allStr args = true) (htq : anyStrTQ args = true) :
    ∃ ctx, validateShellArgsTQ p args =
      some (.tripleQuote "Shell script argument".data ctx) := by
  induction args with
  | nil => simp [anyStrTQ] at htq
  | cons a rest ih =>
    cases a with
    | pStr s =>
      by_cases hc : containsSub sq3 s = true
      · exact ⟨[("script".data, p), ("argument".data, s)], by
          simp [validateShellArgsTQ, hc]⟩
      · simp only [anyStrTQ, Bool.or_eq_true] at htq
        have htq2 : anyStrTQ rest = true := by
          rcases htq with h1 | h1
          · exact absurd h1 hc
          · exact h1
        simp only [allStr] at hstr
        obtain ⟨ctx, hctx⟩ := ih hstr htq2
        refine ⟨ctx, ?_⟩
        simp only [validateShellArgsTQ, Bool.not_eq_true] at hc ⊢
        rw [hc]
        simpa using hctx
    | pInt n => simp [allStr] at hstr
    | pBool b => simp [allStr] at hstr
    | pArr xs => simp [allStr] at hstr
    | pDict kvs => simp [allStr] at hstr

/-- Claim C9: the triple-quote check on the command arguments runs before the
`.sh` suffix check: for every matched `command` array in which some element
after the first is a string containing `'''` (and the others are strings),
the program aborts fatally — regardless of the first element, in particular
even when it does not end in `.sh`. -/

theorem claim_C9 (cfg : ConfigContent) (m : TomlMatch)
    (fs : List (List Char × List Char)) (a0 : PyVal) (args : List PyVal)
    (hv : m.value = .pArr (a0 :: args))
    (hstr : allStr args = true) (htq : anyStrTQ args = true) :
    isTripleQuoteError (processShellScriptMatch cfg m fs) = true := by
  obtain ⟨ctx, hctx⟩ := validateShellArgsTQ_tq (pvToStrD a0) args hstr htq
  unfold processShellScriptMatch
  rw [hv]
  simp only [processShellValue, hctx]
  rfl

/-- Witness for C9: the first element `tool.bin` does not end in `.sh`, yet
the triple-quote argument aborts the run. -/

theorem claim_C9_witness :
    allStr [PyVal.pStr tqArg] = true ∧ anyStrTQ [PyVal.pStr tqArg] = true ∧
    isTripleQuoteError (processShellScriptMatch cfg0 m0 []) = true :=
  ⟨by decide, by decide,
    claim_C9 cfg0 m0 [] (.pStr "tool.bin".data) [.pStr tqArg] rfl
      (by decide) (by decide)⟩

end CombineFiles
